import Mathlib

/-!
Verification of the ClaudePlayer turn/session orchestration core against its
natural-language specification.

Shallow embedding conventions:
* Python `float` values are modelled exactly: intervals, durations, sort
  keys and confidences as exact rationals (`ℚ`), and `time.time()` readings
  as integers (whole seconds; no claim depends on fractional time values).
  All float comparisons exercised by the claims are far from any IEEE
  rounding boundary, so this exact model agrees with the binary-float
  semantics on every input considered here.
* Python exceptions that escape a function are modelled with an explicit error
  component (`Option PyError` / `Except PyError`).  Where the source mutates
  state before raising, the partially-mutated state is returned together with
  the error.
* Python dictionaries with a fixed key set are modelled as association lists
  over that key set; Python object identity (aliasing of one memory-item dict
  from both the flat list and a category bucket) is modelled by writing every
  mutation of an item through all lists simultaneously, which is sound because
  item ids are process-unique (ids are assigned as `total_items + 1` and
  `total_items` never decreases).
-/

/-- Exceptions that the embedded code can raise. -/
inductive PyError where
  | keyError
  | valueError
  | zeroDivisionError
deriving Repr, DecidableEq

/-- Decidable equality for `Except` results. -/
def exceptDecEq {ε α : Type _} [DecidableEq ε] [DecidableEq α] :
    DecidableEq (Except ε α) := fun x y =>
  match x, y with
  | .ok a, .ok b =>
    match decEq a b with
    | isTrue h => isTrue (by rw [h])
    | isFalse h => isFalse (fun hc => h (Except.ok.inj hc))
  | .error a, .error b =>
    match decEq a b with
    | isTrue h => isTrue (by rw [h])
    | isFalse h => isFalse (fun hc => h (Except.error.inj hc))
  | .ok _, .error _ => isFalse (fun hc => Except.noConfusion hc)
  | .error _, .ok _ => isFalse (fun hc => Except.noConfusion hc)

instance {ε α : Type _} [DecidableEq ε] [DecidableEq α] : DecidableEq (Except ε α) :=
  exceptDecEq

/-- Python `int(s)` on a token without inner whitespace: an optional sign
followed by one or more decimal digits (underscore separators are accepted by
CPython but never occur in the claims' inputs and are not modelled). -/
def pyInt (s : String) : Option Int :=
  let chars := s.toList
  let (sign, digits) :=
    match chars with
    | '-' :: rest => ((-1 : Int), rest)
    | '+' :: rest => ((1 : Int), rest)
    | rest => ((1 : Int), rest)
  if digits = [] then none
  else if digits.all Char.isDigit then
    some (sign * (digits.foldl (fun acc c => acc * 10 + (c.toNat - '0'.toNat)) 0 : Nat))
  else none

/-- Python `needle in hay` on strings: substring containment. -/
def containsSub (hay needle : String) : Bool :=
  let h := hay.toList
  let n := needle.toList
  (List.range (h.length + 1)).any (fun i => n.isPrefixOf (h.drop i))

/-- Python `l[-cap:]` for a nonnegative `cap`.  For `cap = 0` Python's `-0`
is `0`, so the slice is the whole list, not the empty suffix. -/
def pyTakeLast (cap : Nat) (l : List α) : List α :=
  if cap = 0 then l else l.drop (l.length - cap)

/-- Helper for `pySplit`: split a character list on whitespace runs,
accumulating the current (reversed) token. -/
def splitWsAux : List Char → List Char → List (List Char)
  | [], acc => if acc = [] then [] else [acc.reverse]
  | c :: rest, acc =>
    if c.isWhitespace then
      if acc = [] then splitWsAux rest [] else acc.reverse :: splitWsAux rest []
    else splitWsAux rest (c :: acc)

/-- Python `str.split()` (no argument): split on whitespace runs, dropping
empty pieces. -/
def pySplit (s : String) : List String :=
  (splitWsAux s.toList []).map String.mk

/-- Python `str.strip()`: drop leading and trailing whitespace. -/
def pyStrip (s : String) : String :=
  String.mk (((s.toList.dropWhile Char.isWhitespace).reverse.dropWhile
    Char.isWhitespace).reverse)

/-- Python `str.lower()` (ASCII case folding, as in every string the
claims touch). -/
def strLower (s : String) : String :=
  String.mk (s.toList.map Char.toLower)

/-- Python `str.upper()` (ASCII). -/
def strUpper (s : String) : String :=
  String.mk (s.toList.map Char.toUpper)

/- ===================== Button micro-language (game_utils.py) ===================== -/

/-- The eight Game Boy buttons of `button_map` in
`src/claude_player/utils/game_utils.py`. -/
inductive GBButton where
  | A | B | U | D | L | R | S | E
deriving Repr, DecidableEq

/-- One externally visible emulator interaction performed by
`press_and_release_buttons`: a `send_input(PRESS_*)`, a `tick()`, or a
`send_input(RELEASE_*)`. -/
inductive EmuAction where
  | press (b : GBButton)
  | tick
  | release (b : GBButton)
deriving Repr, DecidableEq

/-- `button_map` keys of `press_and_release_buttons`: single-letter button
names. -/
def buttonOfChar (c : Char) : Option GBButton :=
  match c with
  | 'A' => some .A
  | 'B' => some .B
  | 'U' => some .U
  | 'D' => some .D
  | 'L' => some .L
  | 'R' => some .R
  | 'S' => some .S
  | 'E' => some .E
  | _ => none

/-- The trace of emulator interactions for one parsed token: press, hold for
`duration` frames (`for _ in range(duration): pyboy.tick()`), release. -/
def holdActions (b : GBButton) (duration : Int) : List EmuAction :=
  [EmuAction.press b] ++ List.replicate duration.toNat EmuAction.tick ++ [EmuAction.release b]

/-- The trace of a list of hold actions, in order. -/
def holdTrace (holds : List (GBButton × Int)) : List EmuAction :=
  holds.flatMap (fun (p : GBButton × Int) => holdActions p.1 p.2)

/-- `press_and_release_buttons` (game_utils.py lines 18-89), embedded as the
sequence of emulator interactions it performs.  Empty / whitespace-only input
returns immediately; a token of length 1 is a 1-frame press; otherwise the
first character is the button and the rest is parsed with `int`, defaulting to
1 on `ValueError`; unknown buttons are skipped. -/
def pressAndReleaseButtons (input_string : String) : List EmuAction :=
  if pyStrip input_string = "" then []
  else
    let inputs := pySplit (pyStrip input_string)
    inputs.flatMap (fun tok =>
      let (button, duration) :=
        if tok.length = 1 then (tok, (1 : Int))
        else
          (String.mk (tok.toList.take 1),
           match pyInt (String.mk (tok.toList.drop 1)) with
           | some n => n
           | none => 1)
      match button.toList with
      | [c] =>
        match buttonOfChar c with
        | some b => holdActions b duration
        | none => []
      | _ => [])

/- ===================== Structured Memory Store (game_state.py) ===================== -/

/-- One memory fact, mirroring the dict built in `GameState.add_memory_item`
(game_state.py lines 54-66). -/
structure MemoryItem where
  id : Nat
  item : String
  category : Option String
  created_at : ℤ
  updated_at : ℤ
  version : Nat
  priority : Int
  confidence : ℚ
  context : List (String × String)
  related_ids : List Nat
  source : String
deriving Repr, DecidableEq

/-- The fixed category set of `GameState.memory_categories`
(game_state.py lines 18-25). -/
def memoryCategories : List String :=
  ["items", "npcs", "locations", "quests", "game_mechanics", "stats"]

/-- The memory-relevant state of `GameState`: flat list, category buckets,
and the `memory_metadata` dict.  Buckets are association lists over the fixed
category keys; aliasing of one Python dict from the flat list and a bucket is
modelled by writing every item mutation through all lists (see header). -/
structure MemState where
  memory_items : List MemoryItem
  structured_memory : List (String × List MemoryItem)
  category_counts : List (String × Int)
  total_items : Nat
  last_consolidated : ℤ
deriving Repr, DecidableEq

/-- `GameState.__init__` (game_state.py lines 8-37), memory part:
`last_consolidated` starts at `0`. -/
def initMemState : MemState :=
  { memory_items := []
  , structured_memory := memoryCategories.map (fun c => (c, []))
  , category_counts := memoryCategories.map (fun c => (c, (0 : Int)))
  , total_items := 0
  , last_consolidated := 0 }

/-- Python dict lookup `d[k]` / `k in d` on an association list: the value
of the first pair with the key. -/
def alistFind : List (String × α) → String → Option α
  | [], _ => none
  | p :: rest, k => if p.1 == k then some p.2 else alistFind rest k

/-- Replace the value at key `k` (no-op when the key is absent; all call
sites check key presence first, matching Python's `KeyError` behaviour). -/
def alistSet (l : List (String × α)) (k : String) (f : α → α) : List (String × α) :=
  l.map (fun p => if p.1 == k then (p.1, f p.2) else p)

/-- The current bucket of category `c` (empty for an unknown key; callers
that would raise `KeyError` in Python check key presence explicitly). -/
def bucketOf (st : MemState) (c : String) : List MemoryItem :=
  (alistFind st.structured_memory c).getD []

/-- Python truthiness of the `category` field: `None` and `""` are falsy. -/
def pyTruthy (c : Option String) : Bool :=
  match c with
  | some s => s ≠ ""
  | none => false

/-- Python `list.remove(x)`: drop the first element equal to `x`, raising
`ValueError` when absent. -/
def pyListRemove [DecidableEq α] (x : α) (l : List α) : Except PyError (List α) :=
  if x ∈ l then .ok (l.erase x) else .error .valueError

/-- Apply `f` to every list entry whose id is `k`.  Because ids are
process-unique, all such entries are aliases of one Python dict, so this is
exactly the effect of mutating that dict in place. -/
def mapById (k : Nat) (f : MemoryItem → MemoryItem) (l : List MemoryItem) : List MemoryItem :=
  l.map (fun x => if x.id = k then f x else x)

/-- In-place mutation of the item with id `k`, visible through the flat list
and every bucket that aliases it. -/
def mutateEverywhere (k : Nat) (f : MemoryItem → MemoryItem) (st : MemState) : MemState :=
  { st with
    memory_items := mapById k f st.memory_items
    structured_memory := st.structured_memory.map (fun p => (p.1, mapById k f p.2)) }

/-- `set(s.lower().split())` (game_state.py line 161): case-folded,
whitespace-tokenised word set, as a deduplicated list. -/
def wordSet (s : String) : List String :=
  (pySplit (strLower s)).dedup

/-- `len(a & b) / len(a | b) > 0.7` (game_state.py line 164) on two
deduplicated word lists.  Raises `ZeroDivisionError` when both sets are
empty.  The float comparison against `0.7` is modelled as the exact rational
comparison `10*i > 7*u`; for word-set sizes below `10^15` the two agree. -/
def jaccardGT (a b : List String) : Except PyError Bool :=
  let i := (a.filter (fun w => b.contains w)).length
  let u := (a ++ b.filter (fun w => !a.contains w)).length
  if u = 0 then .error .zeroDivisionError
  else .ok (decide (10 * i > 7 * u))

/-- The word set of a group's first member (`group[0]` in game_state.py line
163; groups are nonempty by construction, the `[]` case is unreachable). -/
def headTerms (g : List MemoryItem) : List String :=
  match g with
  | h :: _ => wordSet h.item
  | [] => []

/-- Insert one item into the running similarity groups: append it to the
first group whose head has Jaccard similarity above 0.7 with it, else start a
new group at the end (Python dict preserves insertion order). -/
def insertIntoGroups (it : MemoryItem) :
    List (List MemoryItem) → Except PyError (List (List MemoryItem))
  | [] => .ok [[it]]
  | g :: rest =>
    match jaccardGT (wordSet it.item) (headTerms g) with
    | .error e => .error e
    | .ok true => .ok ((g ++ [it]) :: rest)
    | .ok false =>
      match insertIntoGroups it rest with
      | .error e => .error e
      | .ok rest' => .ok (g :: rest')

/-- The grouping phase of `consolidate_memory` (game_state.py lines 158-168):
sequential greedy grouping in flat-list order. -/
def computeGroups (items : List MemoryItem) : Except PyError (List (List MemoryItem)) :=
  items.foldlM (fun groups it => insertIntoGroups it groups) []

/-- The `max(..., key=...)` ranking tuple of game_state.py lines 174-178. -/
def consKey (x : MemoryItem) : ℤ × Int × ℚ :=
  (x.updated_at, x.priority, x.confidence)

/-- Strict lexicographic order on the ranking tuple. -/
def ltKey (a b : ℤ × Int × ℚ) : Bool :=
  a.1 < b.1 || (a.1 == b.1 && (a.2.1 < b.2.1 || (a.2.1 == b.2.1 && a.2.2 < b.2.2)))

/-- Python `max(h :: t, key=consKey)`: keeps the first element on ties. -/
def pyMax (h : MemoryItem) (t : List MemoryItem) : MemoryItem :=
  t.foldl (fun best x => if ltKey (consKey best) (consKey x) then x else best) h

/-- Python `dict.update`: overwrite existing keys in place, append new keys
in order. -/
def dictUpdate (base upd : List (String × String)) : List (String × String) :=
  upd.foldl (fun acc p =>
    if acc.any (fun q => q.1 == p.1) then
      acc.map (fun q => if q.1 == p.1 then (q.1, p.2) else q)
    else acc ++ [p]) base

/-- Merge one non-primary group member into the primary (game_state.py lines
181-188): extend the primary's `related_ids`, merge its `context`, then
delete the member from the flat list and (when categorised) its bucket.
`it` is the member's value as captured at grouping time, which still equals
its live value because only primaries are mutated and groups are disjoint. -/
def mergeOne (pk : Nat) (it : MemoryItem) (st : MemState) : MemState × Option PyError :=
  let st1 := mutateEverywhere pk (fun p =>
    { p with related_ids := p.related_ids ++ it.related_ids
           , context := dictUpdate p.context it.context }) st
  match pyListRemove it st1.memory_items with
  | .error e => (st1, some e)
  | .ok flat' =>
    let st2 := { st1 with memory_items := flat' }
    if pyTruthy it.category then
      match it.category with
      | some c =>
        match alistFind st2.structured_memory c with
        | none => (st2, some .keyError)
        | some bucket =>
          match pyListRemove it bucket with
          | .error e => (st2, some e)
          | .ok b' =>
            ({ st2 with
                structured_memory := alistSet st2.structured_memory c (fun _ => b')
                category_counts := alistSet st2.category_counts c (fun n => n - 1) }, none)
      | none => (st2, none)
    else (st2, none)

/-- The inner merge loop over one group.  The Python guard `item != primary`
compares dict values: entries with different ids always differ (the `id` key
differs), and the entry with the primary's id is the primary object itself,
so the guard is exactly an id comparison. -/
def mergeLoop (pk : Nat) : List MemoryItem → MemState → MemState × Option PyError
  | [], st => (st, none)
  | it :: rest, st =>
    if it.id ≠ pk then
      match mergeOne pk it st with
      | (st', none) => mergeLoop pk rest st'
      | (st', some e) => (st', some e)
    else mergeLoop pk rest st

/-- Merge a similarity group of size `> 1` into its primary
(game_state.py lines 171-188). -/
def mergeGroup (st : MemState) (g : List MemoryItem) : MemState × Option PyError :=
  if g.length > 1 then
    match g with
    | [] => (st, none)
    | h :: t => mergeLoop (pyMax h t).id g st
  else (st, none)

/-- Fold the merge step over all groups. -/
def groupsLoop : List (List MemoryItem) → MemState → MemState × Option PyError
  | [], st => (st, none)
  | g :: rest, st =>
    match mergeGroup st g with
    | (st', none) => groupsLoop rest st'
    | (st', some e) => (st', some e)

/-- `GameState.consolidate_memory` (game_state.py lines 155-190).  The
grouping phase mutates nothing, so an exception there leaves the state
unchanged; a merge-phase exception keeps the mutations made so far.
`last_consolidated` is set only on full success. -/
def consolidate_memory (now : ℤ) (st : MemState) : MemState × Option PyError :=
  match computeGroups st.memory_items with
  | .error e => (st, some e)
  | .ok groups =>
    match groupsLoop groups st with
    | (st', none) => ({ st' with last_consolidated := now }, none)
    | (st', some e) => (st', some e)

/-- `GameState._check_consolidation_needed` (game_state.py lines 192-208). -/
def check_consolidation_needed (now : ℤ) (st : MemState) : MemState × Option PyError :=
  let total_items := st.memory_items.length
  let should :=
    (decide (total_items > 100) && decide (now - st.last_consolidated > 3600)) ||
    (st.category_counts.any (fun p => decide (p.2 > 50))) ||
    decide (now - st.last_consolidated > 86400)
  if should then consolidate_memory now st else (st, none)

/-- The optional `metadata` dict accepted by `add_memory_item`. -/
structure MetaDict where
  priority : Option Int := none
  confidence : Option ℚ := none
  context : Option (List (String × String)) := none
  related_ids : Option (List Nat) := none
  source : Option String := none
deriving Repr, DecidableEq

/-- `GameState.add_memory_item` (game_state.py lines 39-89).  The flat-list
append happens before the bucket append, so an unknown truthy category raises
`KeyError` with the item already in the flat list.  Schema validation only
logs.  The consolidation check runs last and may itself raise. -/
def add_memory_item (now : ℤ) (itemText : String) (category : Option String)
    (metadata : Option MetaDict) (st : MemState) :
    MemState × Except PyError MemoryItem :=
  let memory_id := st.total_items + 1
  let memory_item : MemoryItem :=
    { id := memory_id
    , item := itemText
    , category := category
    , created_at := now
    , updated_at := now
    , version := 1
    , priority := ((metadata.bind MetaDict.priority).getD 0)
    , confidence := ((metadata.bind MetaDict.confidence).getD 1)
    , context := ((metadata.bind MetaDict.context).getD [])
    , related_ids := ((metadata.bind MetaDict.related_ids).getD [])
    , source := ((metadata.bind MetaDict.source).getD "direct") }
  let st1 := { st with memory_items := st.memory_items ++ [memory_item] }
  if pyTruthy category then
    match category with
    | some c =>
      if (alistFind st1.structured_memory c).isSome then
        let st2 := { st1 with
          structured_memory := alistSet st1.structured_memory c (fun b => b ++ [memory_item])
          category_counts := alistSet st1.category_counts c (fun n => n + 1) }
        let st3 := { st2 with total_items := st2.total_items + 1 }
        match check_consolidation_needed now st3 with
        | (st4, none) => (st4, .ok memory_item)
        | (st4, some e) => (st4, .error e)
      else (st1, .error .keyError)
    | none => (st1, .error .keyError)
  else
    let st3 := { st1 with total_items := st1.total_items + 1 }
    match check_consolidation_needed now st3 with
    | (st4, none) => (st4, .ok memory_item)
    | (st4, some e) => (st4, .error e)

/-- The update dict assembled by `handle_update_memory_item`
(tool_setup.py lines 218-236): the fields it can carry. -/
structure UpdateData where
  item : Option String := none
  category : Option (Option String) := none
  priority : Option Int := none
  confidence : Option ℚ := none
  context : Option (List (String × String)) := none
deriving Repr, DecidableEq

/-- The in-place field merge of `update_memory_item` (game_state.py lines
104-111): bump `version`, refresh `updated_at`, overwrite supplied fields
(`id`/`created_at`/`version` excluded). -/
def applyUpdate (now : ℤ) (nd : UpdateData) (x : MemoryItem) : MemoryItem :=
  { x with
    version := x.version + 1
    updated_at := now
    item := nd.item.getD x.item
    category := nd.category.getD x.category
    priority := nd.priority.getD x.priority
    confidence := nd.confidence.getD x.confidence
    context := nd.context.getD x.context }

/-- `GameState._update_structured_memory` (game_state.py lines 210-220):
re-index only the bucket named by the item's *current* category; nothing
removes the item from a previous category's bucket. -/
def update_structured_memory (it : MemoryItem) (st : MemState) : MemState :=
  match it.category with
  | some c =>
    if (alistFind st.structured_memory c).isSome then
      let reindex := fun (b : List MemoryItem) => (b.filter (fun x => x.id ≠ it.id)) ++ [it]
      { st with structured_memory := alistSet st.structured_memory c reindex }
    else st
  | none => st

/-- `GameState.update_memory_item` (game_state.py lines 91-118): find the
first item with the id, mutate it in place, then re-index if the updated
item's category is truthy; return `None` untouched when the id is absent. -/
def update_memory_item (now : ℤ) (item_id : Nat) (nd : UpdateData) (st : MemState) :
    MemState × Option MemoryItem :=
  match st.memory_items.find? (fun x => x.id == item_id) with
  | none => (st, none)
  | some target =>
    let updated := applyUpdate now nd target
    let st1 := mutateEverywhere item_id (applyUpdate now nd) st
    let st2 := if pyTruthy updated.category then update_structured_memory updated st1 else st1
    (st2, some updated)

/-- `handle_remove_from_memory` (tool_setup.py lines 155-177): remove from
the flat list, then from the category bucket when the category is truthy
(raising `KeyError`/`ValueError` on inconsistency), decrement the counter;
an unknown id is reported as text with no mutation. -/
def handle_remove_from_memory (memory_id : Nat) (st : MemState) :
    MemState × Option PyError × String :=
  match st.memory_items.find? (fun x => x.id == memory_id) with
  | none => (st, none, "Error: Memory item " ++ toString memory_id ++ " not found")
  | some it =>
    match pyListRemove it st.memory_items with
    | .error e => (st, some e, "")
    | .ok flat' =>
      let st1 := { st with memory_items := flat' }
      if pyTruthy it.category then
        match it.category with
        | some c =>
          match alistFind st1.structured_memory c with
          | none => (st1, some .keyError, "")
          | some bucket =>
            match pyListRemove it bucket with
            | .error e => (st1, some e, "")
            | .ok b' =>
              ({ st1 with
                  structured_memory := alistSet st1.structured_memory c (fun _ => b')
                  category_counts := alistSet st1.category_counts c (fun n => n - 1) },
               none,
               "Removed memory item " ++ toString memory_id ++ " from category [" ++ c ++ "]")
        | none => (st1, none, "Removed memory item " ++ toString memory_id)
      else (st1, none, "Removed memory item " ++ toString memory_id)

/- ===================== Memory search (game_state.py / tool_setup.py) ===================== -/

/-- Python scalar values that can appear as a memory-item field: scalars or
`None`. -/
inductive PyScalar where
  | none
  | int (n : Int)
  | num (q : ℚ)
  | str (s : String)

/-- A metadata-filter value passed to `search_memory`: a scalar, or one of
the `>=` lambdas built by `handle_search_memory`. -/
inductive PyVal where
  | scalar (v : PyScalar)
  | fn (f : PyScalar → Bool)

/-- Python `==` on scalars.  Numbers compare across `int`/`float`. -/
def pyEqScalar : PyScalar → PyScalar → Bool
  | .int a, .int b => a == b
  | .num a, .num b => a == b
  | .int a, .num b => (a : ℚ) == b
  | .num a, .int b => a == (b : ℚ)
  | .str a, .str b => a == b
  | .none, .none => true
  | _, _ => false

/-- Python `field == filterValue` as evaluated by `search_memory`'s
`item.get(k) == v`: a function filter value compares unequal to any field
scalar (CPython falls back to identity, and a field value is never the same
object as a filter lambda). -/
def pyEqSV (a : PyScalar) : PyVal → Bool
  | .scalar b => pyEqScalar a b
  | .fn _ => false

/-- Python `>=` on scalars (the body of the filter lambdas; only the numeric
cases are reachable from the tool). -/
def pyGe : PyScalar → PyScalar → Bool
  | .int a, .int b => a ≥ b
  | .num a, .num b => a ≥ b
  | .int a, .num b => (a : ℚ) ≥ b
  | .num a, .int b => a ≥ (b : ℚ)
  | _, _ => false

/-- `item.get(k)` on the memory-item dict for the scalar fields; the
container fields (`context`, `related_ids`) are never queried by the
search tool's filters and are modelled as `None`. -/
def itemGet (x : MemoryItem) : String → PyScalar
  | "id" => .int x.id
  | "item" => .str x.item
  | "category" =>
    match x.category with
    | some c => .str c
    | Option.none => .none
  | "created_at" => .num (x.created_at : ℚ)
  | "updated_at" => .num (x.updated_at : ℚ)
  | "version" => .int x.version
  | "priority" => .int x.priority
  | "confidence" => .num x.confidence
  | "source" => .str x.source
  | _ => .none

/-- The sort key of `search_memory` (game_state.py lines 149-151):
`priority * confidence * (1 / (now - updated_at))`, defined only when the
age is nonzero (the zero case raises before sorting). -/
def searchKey (now : ℤ) (x : MemoryItem) : ℚ :=
  (x.priority : ℚ) * x.confidence * (1 / ((now - x.updated_at : ℤ) : ℚ))

/-- Stable insertion for a descending sort: `x` goes after every element
whose key is `≥` its own, reproducing Python's stable
`sort(key=..., reverse=True)`. -/
def insertDesc (key : MemoryItem → ℚ) (x : MemoryItem) : List MemoryItem → List MemoryItem
  | [] => [x]
  | y :: rest => if key y ≥ key x then y :: insertDesc key x rest else x :: y :: rest

/-- Stable descending sort by `key`. -/
def stableSortDesc (key : MemoryItem → ℚ) (l : List MemoryItem) : List MemoryItem :=
  l.foldl (fun acc x => insertDesc key x acc) []

/-- `GameState.search_memory` (game_state.py lines 120-153): choose the
search space (bucket on a truthy category, raising `KeyError` when unknown),
filter by case-insensitive substring plus `item.get(k) == v` over the
metadata filters (skipped when the filter dict is empty/falsy), then sort by
`priority * confidence * (1/age)` descending.  When any selected item has
`now - updated_at = 0`, computing its sort key raises `ZeroDivisionError`. -/
def search_memory (now : ℤ) (query : String) (category : Option String)
    (metadata_filters : List (String × PyVal)) (st : MemState) :
    Except PyError (List MemoryItem) :=
  let space :=
    if pyTruthy category then
      match category with
      | some c =>
        match alistFind st.structured_memory c with
        | some b => Except.ok b
        | Option.none => Except.error PyError.keyError
      | Option.none => Except.ok st.memory_items
    else Except.ok st.memory_items
  match space with
  | .error e => .error e
  | .ok items =>
    let results := items.filter (fun it =>
      containsSub (strLower it.item) (strLower query) &&
      (if metadata_filters.isEmpty then true
       else metadata_filters.all (fun p => pyEqSV (itemGet it p.1) p.2)))
    if results.any (fun it => now - it.updated_at == 0) then
      .error .zeroDivisionError
    else
      .ok (stableSortDesc (searchKey now) results)

/-- `handle_search_memory` (tool_setup.py lines 278-291): build the metadata
filters as `>=` lambdas keyed by `priority` / `confidence`, then call
`search_memory`. -/
def handle_search_memory (now : ℤ) (query : String) (category : Option String)
    (min_priority : Option Int) (min_confidence : Option ℚ) (st : MemState) :
    Except PyError (List MemoryItem) :=
  let filters0 : List (String × PyVal) := []
  let filters1 :=
    match min_priority with
    | some mp => filters0 ++ [("priority", PyVal.fn (fun v => pyGe v (.int mp)))]
    | Option.none => filters0
  let filters2 :=
    match min_confidence with
    | some mc => filters1 ++ [("confidence", PyVal.fn (fun v => pyGe v (.num mc)))]
    | Option.none => filters1
  search_memory now query category filters2 st

/- ===================== Prompt formatting (game_state.py) ===================== -/

/-- Python `f"{q:.1f}"` for the nonnegative confidences the claims use:
round to one decimal, ties to even. -/
def fmtQ1 (q : ℚ) : String :=
  let x := q * 10
  let n : Int := ⌊x⌋
  let frac := x - (n : ℚ)
  let r : Int :=
    if frac > 1/2 then n + 1
    else if frac < 1/2 then n
    else if n % 2 = 0 then n else n + 1
  toString (r / 10) ++ "." ++ toString ((r % 10).natAbs)

/-- The `sorted(items, key=lambda x: (-priority, -confidence))` key order of
`format_memory_for_prompt`: `y` before `x` when `y`'s key is `≤` `x`'s
(stable ascending sort on the negated pair = descending priority then
descending confidence). -/
def lePCKey (y x : MemoryItem) : Bool :=
  (-y.priority) < (-x.priority) ||
  ((-y.priority) == (-x.priority) && (-y.confidence) ≤ (-x.confidence))

/-- Stable insertion for the ascending sort above. -/
def insertPC (x : MemoryItem) : List MemoryItem → List MemoryItem
  | [] => [x]
  | y :: rest => if lePCKey y x then y :: insertPC x rest else x :: y :: rest

/-- Python's stable `sorted(items, key=lambda x: (-priority, -confidence))`. -/
def sortPC (l : List MemoryItem) : List MemoryItem :=
  l.foldl (fun acc x => insertPC x acc) []

/-- Group the flat list into (category, members) pairs in first-seen order
plus the uncategorised rest, as the two passes of
`format_memory_for_prompt` (game_state.py lines 230-239) do. -/
def splitCategorized (items : List MemoryItem) :
    List (String × List MemoryItem) × List MemoryItem :=
  items.foldl (fun acc it =>
    if pyTruthy it.category then
      let c := it.category.getD ""
      if acc.1.any (fun p => p.1 == c) then
        (acc.1.map (fun p => if p.1 == c then (p.1, p.2 ++ [it]) else p), acc.2)
      else (acc.1 ++ [(c, [it])], acc.2)
    else (acc.1, acc.2 ++ [it])) ([], [])

/-- One line of the categorised section, with the priority/confidence
annotation when non-default. -/
def fmtCatLine (it : MemoryItem) : String :=
  "[" ++ toString it.id ++ "] " ++ it.item ++
  (if it.priority > 0 || it.confidence < 1 then
    " (priority: " ++ toString it.priority ++ ", confidence: " ++ fmtQ1 it.confidence ++ ")"
   else "") ++ "\n"

/-- `GameState.format_memory_for_prompt` (game_state.py lines 222-256). -/
def format_memory_for_prompt (st : MemState) : String :=
  if st.memory_items.isEmpty then ""
  else
    let (categorized, uncategorized) := splitCategorized st.memory_items
    let catText := categorized.foldl (fun acc p =>
      acc ++ "\n[" ++ strUpper p.1 ++ "]\n" ++
        ((sortPC p.2).foldl (fun s it => s ++ fmtCatLine it) "")) ""
    let uncatText :=
      if uncategorized.isEmpty then ""
      else "\n[UNCATEGORIZED]\n" ++
        ((sortPC uncategorized).foldl (fun s it =>
          s ++ "[" ++ toString it.id ++ "] " ++ it.item ++ "\n") "")
    "Memory:\n" ++ catText ++ uncatText

/-- Python `x or default` for the nullable session strings (`None` and `""`
are falsy). -/
def orDefault (v : Option String) (d : String) : String :=
  match v with
  | some s => if s = "" then d else s
  | none => d

/- ===================== Session transcript and turn pipeline (game_agent.py) ===================== -/

/-- Message roles of the Claude API conversation. -/
inductive Role where
  | user
  | assistant
deriving Repr, DecidableEq

/-- One content segment of a message.  Screenshots are opaque; tool results
carry their `tool_use_id` and an opaque text body (`execute_tool` returns a
block list whose structure no claim depends on). -/
inductive Seg where
  | text (s : String)
  | image
  | thinking (s : String)
  | toolUse (tool_id : String) (name : String) (input : List (String × String))
  | toolResult (tool_use_id : String) (body : String)
deriving Repr, DecidableEq

/-- A chat message: role plus ordered content segments. -/
structure Message where
  role : Role
  content : List Seg
deriving Repr, DecidableEq

/-- The `GameState` session fields used by the turn pipeline (the memory
part is the `MemState` above). -/
structure GameStateM where
  identified_game : Option String := none
  current_goal : Option String := none
  mem : MemState := initMemState
  turn_count : Nat := 0
  summary : String := ""
  complete_message_history : List Message := []
deriving Repr, DecidableEq

/-- `GameAgent` state relevant to the claims: the game state and the rolling
`chat_history` window. -/
structure Agent where
  gs : GameStateM := {}
  chat_history : List Message := []
deriving Repr, DecidableEq

/-- A freshly constructed agent (empty histories, turn 0). -/
def initAgent : Agent := {}

/-- The configuration fields consumed by the embedded pipeline
(config_loader.py defaults: cap 30, interval 30, initial summary on). -/
structure AgentConfig where
  MAX_HISTORY_MESSAGES : Nat
  SUMMARY_INTERVAL : Nat
  INITIAL_SUMMARY : Bool
  CONTINUOUS_ANALYSIS_INTERVAL : ℚ
  continuousMode : Bool
  ENABLE_WRAPPER : Bool
deriving Repr, DecidableEq

/-- The paired append `chat_history.append(m)` +
`GameState.add_to_complete_history(m)` (game_state.py lines 293-295) used at
every append site of game_agent.py. -/
def appendBoth (m : Message) (a : Agent) : Agent :=
  { a with
    chat_history := a.chat_history ++ [m]
    gs := { a.gs with complete_message_history := a.gs.complete_message_history ++ [m] } }

/-- The rolling-window trim of `process_tool_results` (game_agent.py lines
217-218): `chat_history = chat_history[-MAX_HISTORY_MESSAGES:]` when over
the cap; the archive is untouched. -/
def trimHistory (cap : Nat) (a : Agent) : Agent :=
  if a.chat_history.length > cap then { a with chat_history := pyTakeLast cap a.chat_history }
  else a

/-- `GameState.get_current_state_summary` (game_state.py lines 258-266). -/
def get_current_state_summary (gs : GameStateM) : String :=
  let base := "Current game: " ++ orDefault gs.identified_game "Not identified" ++
    "\nCurrent goal: " ++ orDefault gs.current_goal "Not set" ++
    "\n" ++ format_memory_for_prompt gs.mem
  if gs.summary ≠ "" then
    base ++ "\n\n=== GAME PROGRESS SUMMARY ===\n" ++ gs.summary
  else base

/-- The summary-due test of `prepare_turn_state` (game_agent.py line 114).
Python raises on `turn % 0`; theorems assume a positive interval. -/
def summaryDue (cfg : AgentConfig) (turn : Nat) : Bool :=
  (cfg.INITIAL_SUMMARY && turn == 1) || (turn % cfg.SUMMARY_INTERVAL == 0 && turn > 0)

/-- Per-turn external inputs: the wall-clock string, the wrapper text, the
summary the generator returns (`generate_summary` catches its own model
failures and always returns a string), and the result text each
`execute_tool` call produces (`ToolRegistry.execute_tool`, tool_registry.py
lines 57-68, catches every handler exception, so it always returns). -/
structure TurnEnv where
  timeStr : String := ""
  wrapperText : String := ""
  summaryResult : String := ""
  execTool : String → List (String × String) → String → String := fun _ _ _ => ""

/-- The summary check and store at the end of `GameAgent.prepare_turn_state`
(game_agent.py lines 113-117), run after the user message was appended. -/
def summaryStep (cfg : AgentConfig) (env : TurnEnv) (a2 : Agent) : Agent :=
  if summaryDue cfg a2.gs.turn_count then
    { a2 with gs := { a2.gs with summary := env.summaryResult } }
  else a2

/-- `GameAgent.prepare_turn_state` (game_agent.py lines 80-117), continued:
increment the turn counter, build the user content (screenshot, optional
wrapper text, timing prefix in continuous mode), append the user message —
prefixed with the state snapshot unless the window is empty — and only
*then* run the summary step above. -/
def prepare_turn_state (cfg : AgentConfig) (env : TurnEnv) (a : Agent) : Agent :=
  let gs1 := { a.gs with turn_count := a.gs.turn_count + 1 }
  let userContent0 : List Seg := [Seg.image]
  let userContent1 :=
    if cfg.ENABLE_WRAPPER then
      userContent0 ++
        [Seg.text ("A textual representation of the current screen is:\n" ++ env.wrapperText)]
    else userContent0
  let userContent2 :=
    if cfg.continuousMode then
      Seg.text ("Current time: " ++ env.timeStr ++ "\nTurn #" ++ toString gs1.turn_count)
        :: userContent1
    else userContent1
  let a1 : Agent := { a with gs := gs1 }
  let a2 :=
    if a1.chat_history.length == 0 then
      appendBoth { role := .user, content := userContent2 } a1
    else
      appendBoth
        { role := .user, content := Seg.text (get_current_state_summary gs1) :: userContent2 } a1
  summaryStep cfg env a2

/-- A tool-invocation block of an assistant message. -/
structure TUse where
  tool_id : String
  name : String
  input : List (String × String)
deriving Repr, DecidableEq

/-- The `tool_use` blocks of a content list, in order
(`print_and_extract_message_content`, message_utils.py line 40). -/
def toolUsesOf (content : List Seg) : List TUse :=
  content.filterMap (fun s =>
    match s with
    | Seg.toolUse i n inp => some ⟨i, n, inp⟩
    | _ => none)

/-- The invocation ids of a message's `tool_use` segments, in order. -/
def toolUseIds (m : Message) : List String :=
  (toolUsesOf m.content).map TUse.tool_id

/-- The `tool_use_id`s of a message's `tool_result` segments, in order. -/
def resultIds (m : Message) : List String :=
  m.content.filterMap (fun s =>
    match s with
    | Seg.toolResult i _ => some i
    | _ => none)

/-- The loop body of `process_tool_results` (game_agent.py lines 169-205):
one `tool_result` per block, in order.  In deferred mode a `send_inputs`
block is queued and answered with a fixed text; a missing `"inputs"` key
raises `KeyError` out of the loop (game_agent.py line 176), discarding the
locally accumulated results.  Executed blocks always produce a result
because `execute_tool` never raises. -/
def processLoop (env : TurnEnv) (execute_tools : Bool) :
    List TUse → Except PyError (List Seg × List String)
  | [] => .ok ([], [])
  | b :: rest =>
    if b.name == "send_inputs" && !execute_tools then
      match alistFind b.input "inputs" with
      | some v =>
        match processLoop env execute_tools rest with
        | .ok (res, pend) => .ok (Seg.toolResult b.tool_id "Input queued for execution" :: res, v :: pend)
        | .error e => .error e
      | none => .error .keyError
    else
      match processLoop env execute_tools rest with
      | .ok (res, pend) =>
        .ok (Seg.toolResult b.tool_id (env.execTool b.name b.input b.tool_id) :: res, pend)
      | .error e => .error e

/-- `GameAgent.process_tool_results` (game_agent.py lines 161-220): run the
loop, append the results message when nonempty, trim the window, return the
pending actions.  An exception leaves the histories untouched. -/
def process_tool_results (cfg : AgentConfig) (env : TurnEnv) (execute_tools : Bool)
    (blocks : List TUse) (a : Agent) : Agent × Except PyError (List String) :=
  match processLoop env execute_tools blocks with
  | .error e => (a, .error e)
  | .ok (tool_results, pending) =>
    let a1 :=
      if tool_results.isEmpty then a
      else appendBoth { role := .user, content := tool_results } a
    (trimHistory cfg.MAX_HISTORY_MESSAGES a1, .ok pending)

/-- The synthesized-error results message built by the repair paths
(game_agent.py lines 251-267, 370-387, 399-417): one error `tool_result`
per `tool_use` block, in order. -/
def synthResults (blocks : List TUse) (err : String) : Message :=
  { role := .user, content := blocks.map (fun b => Seg.toolResult b.tool_id ("Error: " ++ err)) }

/-- The repair path that inspects the transcript (game_agent.py lines
239-267 and 389-418): when the window has at least two messages and ends
with an assistant message containing `tool_use` blocks, append synthesized
error results for each of them. -/
def repairFromHistory (err : String) (a : Agent) : Agent :=
  if a.chat_history.length ≥ 2 then
    match a.chat_history.getLast? with
    | some m =>
      if m.role == .assistant then
        let blocks := toolUsesOf m.content
        if !blocks.isEmpty then appendBoth (synthResults blocks err) a else a
      else a
    | none => a
  else a

/-- The repair path that uses the extracted `message_content`
(game_agent.py lines 366-387). -/
def repairFromContent (blocks : List TUse) (err : String) (a : Agent) : Agent :=
  if !blocks.isEmpty then appendBoth (synthResults blocks err) a else a

/-- Where (if anywhere) an `Exception` interrupts one turn / analysis:
before the user append, at the end of `prepare_turn_state`, in the model
call (`send_request` raising, nothing appended), after the assistant append
(extraction raising, `message_content` still unset at the caller), after the
tool results were appended (late logging/bookkeeping raising), or nowhere.
Asynchronous `BaseException`s (KeyboardInterrupt) bypass the handlers and
abort the process; they are outside this model. -/
inductive TurnOutcome where
  | prepEarlyFail (err : String)
  | prepFail (err : String)
  | modelFail (err : String)
  | extractFail (resp : List Seg) (err : String)
  | postProcessFail (resp : List Seg) (err : String)
  | ok (resp : List Seg)

/-- Representative `str(e)` text for a modelled Python exception (the
synthesized result text carries it; no claim depends on the exact string). -/
def pyErrStr : PyError → String
  | .keyError => "'inputs'"
  | .valueError => "list.remove(x): x not in list"
  | .zeroDivisionError => "float division by zero"

/-- `GameAgent.run_turn` (game_agent.py lines 222-270): the synchronous
pipeline with its top-level `except Exception` repair. -/
def runTurn (cfg : AgentConfig) (env : TurnEnv) (outcome : TurnOutcome) (a : Agent) : Agent :=
  match outcome with
  | .prepEarlyFail e => repairFromHistory e a
  | .prepFail e => repairFromHistory e (prepare_turn_state cfg env a)
  | .modelFail e => repairFromHistory e (prepare_turn_state cfg env a)
  | .extractFail resp e =>
    repairFromHistory e
      (appendBoth { role := .assistant, content := resp } (prepare_turn_state cfg env a))
  | .postProcessFail resp e =>
    let a1 := appendBoth { role := .assistant, content := resp } (prepare_turn_state cfg env a)
    match process_tool_results cfg env true (toolUsesOf resp) a1 with
    | (a2, .ok _) => repairFromHistory e a2
    | (a2, .error e2) => repairFromHistory (pyErrStr e2) a2
  | .ok resp =>
    let a1 := appendBoth { role := .assistant, content := resp } (prepare_turn_state cfg env a)
    match process_tool_results cfg env true (toolUsesOf resp) a1 with
    | (a2, .ok _) => a2
    | (a2, .error e2) => repairFromHistory (pyErrStr e2) a2

/-- The shared state of `run_continuous` (game_agent.py lines 280-297) that
one analysis cycle reads and writes. -/
structure SchedState where
  agent : Agent := {}
  pending_actions : List String := []
  adaptive_interval : ℚ := 1
  last_analysis_duration : ℚ := 0
  error_count : Nat := 0
  last_error_time : ℚ := 0
  analysis_complete : Bool := false

/-- External inputs of one analysis cycle: the per-turn inputs plus the
clock readings taken at its start, at its end, and in its error handler. -/
structure AnalysisEnv where
  turnEnv : TurnEnv := {}
  startTime : ℚ := 0
  endTime : ℚ := 0
  errTime : ℚ := 0

/-- The error-frequency tracking and circuit breaker of `run_analysis`
(game_agent.py lines 347-363): bump or reset the error counter, and after
more than three rapid errors stretch the interval by 1.5x with a 10s floor. -/
def analysisErrorBookkeeping (errTime : ℚ) (ss : SchedState) : SchedState :=
  let ec := if errTime - ss.last_error_time < 60 then ss.error_count + 1 else 1
  let ss1 := { ss with error_count := ec, last_error_time := errTime }
  if ec > 3 then { ss1 with adaptive_interval := max (ss1.adaptive_interval * (3/2)) 10 }
  else ss1

/-- `run_analysis` (game_agent.py lines 300-422): the success path extends
the pending queue, records the duration and applies the adaptive-interval
moving average with the configured floor, and resets the error counter; every
failure path runs the error bookkeeping and then repairs unanswered
`tool_use` blocks — from `message_content` when it was produced, else from
the last transcript message.  The completion flag is set in every case. -/
def runAnalysis (cfg : AgentConfig) (env : AnalysisEnv) (outcome : TurnOutcome)
    (ss : SchedState) : SchedState :=
  match outcome with
  | .prepEarlyFail e =>
    let ss1 := analysisErrorBookkeeping env.errTime ss
    { ss1 with agent := repairFromHistory e ss1.agent, analysis_complete := true }
  | .prepFail e =>
    let ss0 := { ss with agent := prepare_turn_state cfg env.turnEnv ss.agent }
    let ss1 := analysisErrorBookkeeping env.errTime ss0
    { ss1 with agent := repairFromHistory e ss1.agent, analysis_complete := true }
  | .modelFail e =>
    let ss0 := { ss with agent := prepare_turn_state cfg env.turnEnv ss.agent }
    let ss1 := analysisErrorBookkeeping env.errTime ss0
    { ss1 with agent := repairFromHistory e ss1.agent, analysis_complete := true }
  | .extractFail resp e =>
    let a1 := appendBoth { role := .assistant, content := resp }
      (prepare_turn_state cfg env.turnEnv ss.agent)
    let ss1 := analysisErrorBookkeeping env.errTime { ss with agent := a1 }
    { ss1 with agent := repairFromHistory e ss1.agent, analysis_complete := true }
  | .postProcessFail resp e =>
    let a1 := appendBoth { role := .assistant, content := resp }
      (prepare_turn_state cfg env.turnEnv ss.agent)
    match process_tool_results cfg env.turnEnv false (toolUsesOf resp) a1 with
    | (a2, .ok actions) =>
      let dur := env.endTime - env.startTime
      let ss1 := { ss with
        agent := a2
        pending_actions := ss.pending_actions ++ actions
        last_analysis_duration := dur
        adaptive_interval :=
          max ((7/10) * ss.adaptive_interval + (3/10) * dur) cfg.CONTINUOUS_ANALYSIS_INTERVAL }
      let ss2 := analysisErrorBookkeeping env.errTime ss1
      { ss2 with agent := repairFromContent (toolUsesOf resp) e ss2.agent
               , analysis_complete := true }
    | (a2, .error e2) =>
      let ss1 := analysisErrorBookkeeping env.errTime { ss with agent := a2 }
      { ss1 with agent := repairFromContent (toolUsesOf resp) (pyErrStr e2) ss1.agent
               , analysis_complete := true }
  | .ok resp =>
    let a1 := appendBoth { role := .assistant, content := resp }
      (prepare_turn_state cfg env.turnEnv ss.agent)
    match process_tool_results cfg env.turnEnv false (toolUsesOf resp) a1 with
    | (a2, .ok actions) =>
      let dur := env.endTime - env.startTime
      { ss with
        agent := a2
        pending_actions := ss.pending_actions ++ actions
        last_analysis_duration := dur
        adaptive_interval :=
          max ((7/10) * ss.adaptive_interval + (3/10) * dur) cfg.CONTINUOUS_ANALYSIS_INTERVAL
        error_count := 0
        analysis_complete := true }
    | (a2, .error e2) =>
      let ss1 := analysisErrorBookkeeping env.errTime { ss with agent := a2 }
      { ss1 with agent := repairFromContent (toolUsesOf resp) (pyErrStr e2) ss1.agent
               , analysis_complete := true }

/- ===================== Transcript operations (claim C6) ===================== -/

/-- One transcript operation: a paired append, or the window trim. -/
inductive HistOp where
  | append (m : Message)
  | trim

/-- Apply a sequence of transcript operations. -/
def applyHistOps (cap : Nat) : List HistOp → Agent → Agent
  | [], a => a
  | .append m :: rest, a => applyHistOps cap rest (appendBoth m a)
  | .trim :: rest, a => applyHistOps cap rest (trimHistory cap a)

/-- The messages appended by a sequence of transcript operations, in order. -/
def appendsOf : List HistOp → List Message
  | [] => []
  | .append m :: rest => m :: appendsOf rest
  | .trim :: rest => appendsOf rest

/-- Whether the operation sequence ends with a trim (an append-and-trim
cycle). -/
def endsWithTrim : List HistOp → Bool
  | [] => false
  | [op] => match op with | .trim => true | _ => false
  | _ :: rest => endsWithTrim rest

/- ===================== Protocol invariant (claim C1) ===================== -/

/-- Set equality of two id lists. -/
def idSetEq (l1 l2 : List String) : Bool :=
  l1.all (fun x => l2.contains x) && l2.all (fun x => l1.contains x)

/-- A message that still owes results: an assistant message with at least
one `tool_use` segment. -/
def msgPending (m : Message) : Bool :=
  m.role == .assistant && !(toolUseIds m).isEmpty

/-- `next` answers `m`: a user message whose `tool_result` ids are exactly
the set of `m`'s invocation ids. -/
def answers (m next : Message) : Bool :=
  next.role == .user && idSetEq (resultIds next) (toolUseIds m)

/-- The protocol invariant over a transcript: every assistant message with
`tool_use` segments is immediately followed by a user message whose
`tool_result` ids are exactly its invocation ids. -/
def protocolOKb : List Message → Bool
  | [] => true
  | [m] => !msgPending m
  | m :: m2 :: rest => (!msgPending m || answers m m2) && protocolOKb (m2 :: rest)

/- ===================== Supporting lemmas ===================== -/

theorem processLoop_ok_of_inputs (env : TurnEnv) (ex : Bool) (blocks : List TUse)
    (h : ∀ b ∈ blocks, b.name = "send_inputs" → (alistFind b.input "inputs").isSome) :
    ∃ res pend, processLoop env ex blocks = .ok (res, pend) := by
  induction blocks with
  | nil => exact ⟨[], [], rfl⟩
  | cons b rest ih =>
    obtain ⟨res, pend, hr⟩ := ih (fun x hx hn => h x (List.mem_cons_of_mem _ hx) hn)
    by_cases hb : (b.name == "send_inputs" && !ex) = true
    · have hname : b.name = "send_inputs" := by
        have := (Bool.and_eq_true _ _).mp hb
        exact beq_iff_eq.mp this.1
      have hin := h b (List.mem_cons_self _ _) hname
      obtain ⟨v, hv⟩ := Option.isSome_iff_exists.mp hin
      refine ⟨Seg.toolResult b.tool_id "Input queued for execution" :: res, v :: pend, ?_⟩
      simp only [processLoop, hb, if_true, hv, hr]
    · refine ⟨Seg.toolResult b.tool_id (env.execTool b.name b.input b.tool_id) :: res, pend, ?_⟩
      simp only [processLoop, hb, if_false, hr, Bool.false_eq_true]

theorem processLoop_execute_ok (env : TurnEnv) (blocks : List TUse) :
    ∃ res pend, processLoop env true blocks = .ok (res, pend) := by
  induction blocks with
  | nil => exact ⟨[], [], rfl⟩
  | cons b rest ih =>
    obtain ⟨res, pend, hr⟩ := ih
    refine ⟨Seg.toolResult b.tool_id (env.execTool b.name b.input b.tool_id) :: res, pend, ?_⟩
    simp only [processLoop, Bool.not_true, Bool.and_false, Bool.false_eq_true, if_false, hr]

theorem processLoop_resultIds (env : TurnEnv) (ex : Bool) (blocks : List TUse)
    (res : List Seg) (pend : List String)
    (h : processLoop env ex blocks = .ok (res, pend)) :
    resultIds { role := Role.user, content := res } = blocks.map TUse.tool_id := by
  induction blocks generalizing res pend with
  | nil =>
    simp only [processLoop] at h
    cases h
    rfl
  | cons b rest ih =>
    simp only [processLoop] at h
    split at h
    · cases hv : alistFind b.input "inputs" with
      | none => rw [hv] at h; cases h
      | some v =>
        rw [hv] at h
        cases hr : processLoop env ex rest with
        | error e => rw [hr] at h; cases h
        | ok p =>
          obtain ⟨res0, pend0⟩ := p
          rw [hr] at h
          simp only [Except.ok.injEq, Prod.mk.injEq] at h
          obtain ⟨h1, h2⟩ := h
          subst h1
          simpa [resultIds] using ih res0 pend0 hr
    · cases hr : processLoop env ex rest with
      | error e => rw [hr] at h; cases h
      | ok p =>
        obtain ⟨res0, pend0⟩ := p
        rw [hr] at h
        simp only [Except.ok.injEq, Prod.mk.injEq] at h
        obtain ⟨h1, h2⟩ := h
        subst h1
        simpa [resultIds] using ih res0 pend0 hr

theorem processLoop_isEmpty (env : TurnEnv) (ex : Bool) (blocks : List TUse)
    (res : List Seg) (pend : List String)
    (h : processLoop env ex blocks = .ok (res, pend)) :
    res.isEmpty = blocks.isEmpty := by
  induction blocks generalizing res pend with
  | nil =>
    simp only [processLoop] at h
    cases h
    rfl
  | cons b rest ih =>
    simp only [processLoop] at h
    split at h
    · cases hv : alistFind b.input "inputs" with
      | none => rw [hv] at h; cases h
      | some v =>
        rw [hv] at h
        cases hr : processLoop env ex rest with
        | error e => rw [hr] at h; cases h
        | ok p => rw [hr] at h; cases h; rfl
    · cases hr : processLoop env ex rest with
      | error e => rw [hr] at h; cases h
      | ok p => rw [hr] at h; cases h; rfl

theorem processLoop_error_nonempty (env : TurnEnv) (ex : Bool) (blocks : List TUse)
    (e : PyError) (h : processLoop env ex blocks = .error e) : blocks ≠ [] := by
  intro hb
  subst hb
  simp only [processLoop] at h
  exact Except.noConfusion h

theorem resultIds_synthResults (blocks : List TUse) (err : String) :
    resultIds (synthResults blocks err) = blocks.map TUse.tool_id := by
  unfold synthResults resultIds
  induction blocks with
  | nil => rfl
  | cons b rest ih => simpa using ih

theorem idSetEq_self (l : List String) : idSetEq l l = true := by
  unfold idSetEq
  rw [Bool.and_self]
  rw [List.all_eq_true]
  intro x hx
  exact List.elem_iff.mpr hx

theorem msgPending_of_user {m : Message} (h : m.role = .user) : msgPending m = false := by
  simp [msgPending, h]

theorem protocolOKb_single_user {m : Message} (h : m.role = .user) :
    protocolOKb [m] = true := by
  simp [protocolOKb, msgPending_of_user h]

theorem protocolOKb_append {xs ys : List Message}
    (hx : protocolOKb xs = true) (hy : protocolOKb ys = true) :
    protocolOKb (xs ++ ys) = true := by
  induction xs with
  | nil => simpa using hy
  | cons m rest ih =>
    cases rest with
    | nil =>
      cases ys with
      | nil => simpa using hx
      | cons y yt =>
        have hm : msgPending m = false := by
          simpa [protocolOKb] using hx
        simpa [protocolOKb, hm] using hy
    | cons m2 rest2 =>
      have hx' := hx
      simp only [protocolOKb, Bool.and_eq_true] at hx'
      have htail := ih hx'.2
      rw [List.cons_append, List.cons_append]
      rw [List.cons_append] at htail
      simp only [protocolOKb, Bool.and_eq_true]
      exact ⟨hx'.1, htail⟩

theorem appendBoth_chat (m : Message) (a : Agent) :
    (appendBoth m a).chat_history = a.chat_history ++ [m] := rfl

theorem appendBoth_archive (m : Message) (a : Agent) :
    (appendBoth m a).gs.complete_message_history
      = a.gs.complete_message_history ++ [m] := rfl

theorem trimHistory_gs (cap : Nat) (a : Agent) : (trimHistory cap a).gs = a.gs := by
  unfold trimHistory
  split <;> rfl

theorem trimHistory_suffix (cap : Nat) (a : Agent) :
    ∃ pre, a.chat_history = pre ++ (trimHistory cap a).chat_history := by
  unfold trimHistory
  split
  · unfold pyTakeLast
    split
    · exact ⟨[], rfl⟩
    · exact ⟨_, (List.take_append_drop _ _).symm⟩
  · exact ⟨[], rfl⟩

theorem summaryStep_chat (cfg : AgentConfig) (env : TurnEnv) (a2 : Agent) :
    (summaryStep cfg env a2).chat_history = a2.chat_history := by
  unfold summaryStep
  split <;> rfl

theorem summaryStep_archive (cfg : AgentConfig) (env : TurnEnv) (a2 : Agent) :
    (summaryStep cfg env a2).gs.complete_message_history
      = a2.gs.complete_message_history := by
  unfold summaryStep
  split <;> rfl

theorem prepare_turn_state_shape (cfg : AgentConfig) (env : TurnEnv) (a : Agent) :
    ∃ u : Message, u.role = .user ∧
      (prepare_turn_state cfg env a).chat_history = a.chat_history ++ [u] ∧
      (prepare_turn_state cfg env a).gs.complete_message_history
        = a.gs.complete_message_history ++ [u] := by
  unfold prepare_turn_state
  dsimp only
  rw [summaryStep_chat, summaryStep_archive]
  split
  · exact ⟨_, rfl, rfl, rfl⟩
  · exact ⟨_, rfl, rfl, rfl⟩

theorem synthResults_role (blocks : List TUse) (err : String) :
    (synthResults blocks err).role = .user := rfl

theorem msgPending_of_no_blocks {m : Message}
    (h : (toolUsesOf m.content).isEmpty = true) : msgPending m = false := by
  unfold msgPending toolUseIds
  rw [List.isEmpty_iff] at h
  simp [h]

theorem answers_synthResults (m : Message) (err : String) :
    answers m (synthResults (toolUsesOf m.content) err) = true := by
  unfold answers
  rw [resultIds_synthResults]
  have : toolUseIds m = (toolUsesOf m.content).map TUse.tool_id := rfl
  rw [← this, idSetEq_self]
  rfl

theorem protocolOKb_pair {u m : Message} (hu : u.role = .user)
    (hm : msgPending m = false) : protocolOKb [u, m] = true := by
  simp [protocolOKb, msgPending_of_user hu, hm]

theorem protocolOKb_triple {u m r : Message} (hu : u.role = .user)
    (hr : r.role = .user) (ha : answers m r = true) : protocolOKb [u, m, r] = true := by
  simp [protocolOKb, msgPending_of_user hu, msgPending_of_user hr, ha]

theorem repairFromHistory_archive (err : String) (a : Agent) :
    (repairFromHistory err a).gs.complete_message_history
        = a.gs.complete_message_history ∨
    ∃ blocks, (repairFromHistory err a).gs.complete_message_history
        = a.gs.complete_message_history ++ [synthResults blocks err] := by
  unfold repairFromHistory
  split
  · split
    · split
      · dsimp only
        split
        · exact Or.inr ⟨_, rfl⟩
        · exact Or.inl rfl
      · exact Or.inl rfl
    · exact Or.inl rfl
  · exact Or.inl rfl

theorem repairFromHistory_after_append (err : String) (a' : Agent) (m : Message)
    (hm : m.role = .assistant) (hne : a'.chat_history ≠ []) :
    repairFromHistory err (appendBoth m a') =
      if !(toolUsesOf m.content).isEmpty then
        appendBoth (synthResults (toolUsesOf m.content) err) (appendBoth m a')
      else appendBoth m a' := by
  unfold repairFromHistory
  have hlen : (appendBoth m a').chat_history.length ≥ 2 := by
    rw [appendBoth_chat, List.length_append]
    have : a'.chat_history.length ≥ 1 := by
      cases hcl : a'.chat_history with
      | nil => exact absurd hcl hne
      | cons x xs => simp
    simpa using this
  rw [if_pos hlen]
  have hlast : (appendBoth m a').chat_history.getLast? = some m := by
    rw [appendBoth_chat]
    exact List.getLast?_concat _
  rw [hlast]
  simp only [hm, beq_self_eq_true, if_true]

theorem answers_processResult {env : TurnEnv} {ex : Bool} {resp : List Seg}
    {res : List Seg} {pend : List String}
    (hloop : processLoop env ex (toolUsesOf resp) = .ok (res, pend)) :
    answers { role := .assistant, content := resp } { role := Role.user, content := res }
      = true := by
  unfold answers
  rw [processLoop_resultIds _ _ _ _ _ hloop]
  have ht : toolUseIds { role := Role.assistant, content := resp }
      = (toolUsesOf resp).map TUse.tool_id := rfl
  rw [ht, idSetEq_self]
  rfl

theorem repair_preserves_protocol (err : String) (a : Agent)
    (h : protocolOKb a.gs.complete_message_history = true) :
    protocolOKb (repairFromHistory err a).gs.complete_message_history = true := by
  rcases repairFromHistory_archive err a with hr | ⟨blocks, hr⟩
  · rw [hr]; exact h
  · rw [hr]
    exact protocolOKb_append h (protocolOKb_single_user (synthResults_role _ _))

theorem runTurn_preserves_protocol (cfg : AgentConfig) (env : TurnEnv)
    (outcome : TurnOutcome) (a : Agent)
    (h : protocolOKb a.gs.complete_message_history = true) :
    protocolOKb (runTurn cfg env outcome a).gs.complete_message_history = true := by
  obtain ⟨u, hu, huc, hua⟩ := prepare_turn_state_shape cfg env a
  have hprepOK : protocolOKb (prepare_turn_state cfg env a).gs.complete_message_history
      = true := by
    rw [hua]
    exact protocolOKb_append h (protocolOKb_single_user hu)
  have hne : (prepare_turn_state cfg env a).chat_history ≠ [] := by
    rw [huc]; simp
  cases outcome with
  | prepEarlyFail e => exact repair_preserves_protocol e a h
  | prepFail e => exact repair_preserves_protocol e _ hprepOK
  | modelFail e => exact repair_preserves_protocol e _ hprepOK
  | extractFail resp e =>
    simp only [runTurn]
    rw [repairFromHistory_after_append e _ { role := .assistant, content := resp } rfl hne]
    by_cases hb : (toolUsesOf resp).isEmpty = true
    · rw [if_neg (by simp [hb])]
      rw [appendBoth_archive, hua]
      have hassoc : (a.gs.complete_message_history ++ [u])
            ++ [({ role := Role.assistant, content := resp } : Message)]
          = a.gs.complete_message_history
            ++ [u, { role := Role.assistant, content := resp }] := by simp
      rw [hassoc]
      exact protocolOKb_append h (protocolOKb_pair hu (msgPending_of_no_blocks hb))
    · rw [if_pos (by simpa using hb)]
      rw [appendBoth_archive, appendBoth_archive, hua]
      have hassoc : ((a.gs.complete_message_history ++ [u])
            ++ [({ role := Role.assistant, content := resp } : Message)])
            ++ [synthResults (toolUsesOf ({ role := Role.assistant, content := resp } : Message).content) e]
          = a.gs.complete_message_history
            ++ [u, { role := Role.assistant, content := resp },
                synthResults (toolUsesOf resp) e] := by simp
      rw [hassoc]
      exact protocolOKb_append h
        (protocolOKb_triple hu (synthResults_role _ _) (answers_synthResults _ _))
  | postProcessFail resp e =>
    obtain ⟨res, pend, hloop⟩ := processLoop_execute_ok env (toolUsesOf resp)
    simp only [runTurn, process_tool_results, hloop]
    apply repair_preserves_protocol
    rw [trimHistory_gs]
    by_cases hres : res.isEmpty = true
    · rw [if_pos hres]
      rw [appendBoth_archive, hua]
      have hassoc : (a.gs.complete_message_history ++ [u])
            ++ [({ role := Role.assistant, content := resp } : Message)]
          = a.gs.complete_message_history
            ++ [u, { role := Role.assistant, content := resp }] := by simp
      rw [hassoc]
      have hbe : (toolUsesOf resp).isEmpty = true := by
        rw [← processLoop_isEmpty _ _ _ _ _ hloop]; exact hres
      exact protocolOKb_append h (protocolOKb_pair hu (msgPending_of_no_blocks hbe))
    · rw [if_neg hres]
      rw [appendBoth_archive, appendBoth_archive, hua]
      have hassoc : ((a.gs.complete_message_history ++ [u])
            ++ [({ role := Role.assistant, content := resp } : Message)])
            ++ [({ role := Role.user, content := res } : Message)]
          = a.gs.complete_message_history
            ++ [u, { role := Role.assistant, content := resp },
                { role := Role.user, content := res }] := by simp
      rw [hassoc]
      exact protocolOKb_append h
        (protocolOKb_triple hu rfl (answers_processResult hloop))
  | ok resp =>
    obtain ⟨res, pend, hloop⟩ := processLoop_execute_ok env (toolUsesOf resp)
    simp only [runTurn, process_tool_results, hloop]
    rw [trimHistory_gs]
    by_cases hres : res.isEmpty = true
    · rw [if_pos hres]
      rw [appendBoth_archive, hua]
      have hassoc : (a.gs.complete_message_history ++ [u])
            ++ [({ role := Role.assistant, content := resp } : Message)]
          = a.gs.complete_message_history
            ++ [u, { role := Role.assistant, content := resp }] := by simp
      rw [hassoc]
      have hbe : (toolUsesOf resp).isEmpty = true := by
        rw [← processLoop_isEmpty _ _ _ _ _ hloop]; exact hres
      exact protocolOKb_append h (protocolOKb_pair hu (msgPending_of_no_blocks hbe))
    · rw [if_neg hres]
      rw [appendBoth_archive, appendBoth_archive, hua]
      have hassoc : ((a.gs.complete_message_history ++ [u])
            ++ [({ role := Role.assistant, content := resp } : Message)])
            ++ [({ role := Role.user, content := res } : Message)]
          = a.gs.complete_message_history
            ++ [u, { role := Role.assistant, content := resp },
                { role := Role.user, content := res }] := by simp
      rw [hassoc]
      exact protocolOKb_append h
        (protocolOKb_triple hu rfl (answers_processResult hloop))

theorem analysisErrorBookkeeping_agent (t : ℚ) (ss : SchedState) :
    (analysisErrorBookkeeping t ss).agent = ss.agent := by
  unfold analysisErrorBookkeeping
  dsimp only
  split <;> split <;> rfl

theorem repairFromContent_preserves (blocks : List TUse) (err : String) (a : Agent)
    (h : protocolOKb a.gs.complete_message_history = true) :
    protocolOKb (repairFromContent blocks err a).gs.complete_message_history = true := by
  unfold repairFromContent
  split
  · rw [appendBoth_archive]
    exact protocolOKb_append h (protocolOKb_single_user (synthResults_role _ _))
  · exact h

theorem runAnalysis_preserves_protocol (cfg : AgentConfig) (env : AnalysisEnv)
    (outcome : TurnOutcome) (ss : SchedState)
    (h : protocolOKb ss.agent.gs.complete_message_history = true) :
    protocolOKb (runAnalysis cfg env outcome ss).agent.gs.complete_message_history
      = true := by
  obtain ⟨u, hu, huc, hua⟩ := prepare_turn_state_shape cfg env.turnEnv ss.agent
  have hprepOK : protocolOKb
      (prepare_turn_state cfg env.turnEnv ss.agent).gs.complete_message_history = true := by
    rw [hua]
    exact protocolOKb_append h (protocolOKb_single_user hu)
  cases outcome with
  | prepEarlyFail e =>
    simp only [runAnalysis]
    rw [analysisErrorBookkeeping_agent]
    exact repair_preserves_protocol e _ h
  | prepFail e =>
    simp only [runAnalysis]
    rw [analysisErrorBookkeeping_agent]
    exact repair_preserves_protocol e _ hprepOK
  | modelFail e =>
    simp only [runAnalysis]
    rw [analysisErrorBookkeeping_agent]
    exact repair_preserves_protocol e _ hprepOK
  | extractFail resp e =>
    simp only [runAnalysis]
    rw [analysisErrorBookkeeping_agent]
    dsimp only
    have hne : (prepare_turn_state cfg env.turnEnv ss.agent).chat_history ≠ [] := by
      rw [huc]; simp
    rw [repairFromHistory_after_append e _ { role := .assistant, content := resp } rfl hne]
    by_cases hb : (toolUsesOf resp).isEmpty = true
    · rw [if_neg (by simp [hb])]
      rw [appendBoth_archive, hua]
      have hassoc : (ss.agent.gs.complete_message_history ++ [u])
            ++ [({ role := Role.assistant, content := resp } : Message)]
          = ss.agent.gs.complete_message_history
            ++ [u, { role := Role.assistant, content := resp }] := by simp
      rw [hassoc]
      exact protocolOKb_append h (protocolOKb_pair hu (msgPending_of_no_blocks hb))
    · rw [if_pos (by simpa using hb)]
      rw [appendBoth_archive, appendBoth_archive, hua]
      have hassoc : ((ss.agent.gs.complete_message_history ++ [u])
            ++ [({ role := Role.assistant, content := resp } : Message)])
            ++ [synthResults (toolUsesOf ({ role := Role.assistant, content := resp } : Message).content) e]
          = ss.agent.gs.complete_message_history
            ++ [u, { role := Role.assistant, content := resp },
                synthResults (toolUsesOf resp) e] := by simp
      rw [hassoc]
      exact protocolOKb_append h
        (protocolOKb_triple hu (synthResults_role _ _) (answers_synthResults _ _))
  | postProcessFail resp e =>
    simp only [runAnalysis]
    cases hloop : processLoop env.turnEnv false (toolUsesOf resp) with
    | ok p =>
      obtain ⟨res, pend⟩ := p
      simp only [process_tool_results, hloop]
      rw [analysisErrorBookkeeping_agent]
      dsimp only
      apply repairFromContent_preserves
      rw [trimHistory_gs]
      by_cases hres : res.isEmpty = true
      · rw [if_pos hres]
        rw [appendBoth_archive, hua]
        have hassoc : (ss.agent.gs.complete_message_history ++ [u])
              ++ [({ role := Role.assistant, content := resp } : Message)]
            = ss.agent.gs.complete_message_history
              ++ [u, { role := Role.assistant, content := resp }] := by simp
        rw [hassoc]
        have hbe : (toolUsesOf resp).isEmpty = true := by
          rw [← processLoop_isEmpty _ _ _ _ _ hloop]; exact hres
        exact protocolOKb_append h (protocolOKb_pair hu (msgPending_of_no_blocks hbe))
      · rw [if_neg hres]
        rw [appendBoth_archive, appendBoth_archive, hua]
        have hassoc : ((ss.agent.gs.complete_message_history ++ [u])
              ++ [({ role := Role.assistant, content := resp } : Message)])
              ++ [({ role := Role.user, content := res } : Message)]
            = ss.agent.gs.complete_message_history
              ++ [u, { role := Role.assistant, content := resp },
                  { role := Role.user, content := res }] := by simp
        rw [hassoc]
        exact protocolOKb_append h
          (protocolOKb_triple hu rfl (answers_processResult hloop))
    | error e2 =>
      simp only [process_tool_results, hloop]
      rw [analysisErrorBookkeeping_agent]
      dsimp only
      unfold repairFromContent
      rw [if_pos (by simpa using processLoop_error_nonempty _ _ _ _ hloop)]
      rw [appendBoth_archive, appendBoth_archive, hua]
      have hassoc : ((ss.agent.gs.complete_message_history ++ [u])
            ++ [({ role := Role.assistant, content := resp } : Message)])
            ++ [synthResults (toolUsesOf resp) (pyErrStr e2)]
          = ss.agent.gs.complete_message_history
            ++ [u, { role := Role.assistant, content := resp },
                synthResults (toolUsesOf resp) (pyErrStr e2)] := by simp
      rw [hassoc]
      exact protocolOKb_append h
        (protocolOKb_triple hu (synthResults_role _ _) (answers_synthResults _ _))
  | ok resp =>
    simp only [runAnalysis]
    cases hloop : processLoop env.turnEnv false (toolUsesOf resp) with
    | ok p =>
      obtain ⟨res, pend⟩ := p
      simp only [process_tool_results, hloop]
      rw [trimHistory_gs]
      by_cases hres : res.isEmpty = true
      · rw [if_pos hres]
        rw [appendBoth_archive, hua]
        have hassoc : (ss.agent.gs.complete_message_history ++ [u])
              ++ [({ role := Role.assistant, content := resp } : Message)]
            = ss.agent.gs.complete_message_history
              ++ [u, { role := Role.assistant, content := resp }] := by simp
        rw [hassoc]
        have hbe : (toolUsesOf resp).isEmpty = true := by
          rw [← processLoop_isEmpty _ _ _ _ _ hloop]; exact hres
        exact protocolOKb_append h (protocolOKb_pair hu (msgPending_of_no_blocks hbe))
      · rw [if_neg hres]
        rw [appendBoth_archive, appendBoth_archive, hua]
        have hassoc : ((ss.agent.gs.complete_message_history ++ [u])
              ++ [({ role := Role.assistant, content := resp } : Message)])
              ++ [({ role := Role.user, content := res } : Message)]
            = ss.agent.gs.complete_message_history
              ++ [u, { role := Role.assistant, content := resp },
                  { role := Role.user, content := res }] := by simp
        rw [hassoc]
        exact protocolOKb_append h
          (protocolOKb_triple hu rfl (answers_processResult hloop))
    | error e2 =>
      simp only [process_tool_results, hloop]
      rw [analysisErrorBookkeeping_agent]
      dsimp only
      unfold repairFromContent
      rw [if_pos (by simpa using processLoop_error_nonempty _ _ _ _ hloop)]
      rw [appendBoth_archive, appendBoth_archive, hua]
      have hassoc : ((ss.agent.gs.complete_message_history ++ [u])
            ++ [({ role := Role.assistant, content := resp } : Message)])
            ++ [synthResults (toolUsesOf resp) (pyErrStr e2)]
          = ss.agent.gs.complete_message_history
            ++ [u, { role := Role.assistant, content := resp },
                synthResults (toolUsesOf resp) (pyErrStr e2)] := by simp
      rw [hassoc]
      exact protocolOKb_append h
        (protocolOKb_triple hu (synthResults_role _ _) (answers_synthResults _ _))

theorem applyHistOps_archive (cap : Nat) (ops : List HistOp) (a : Agent) :
    (applyHistOps cap ops a).gs.complete_message_history
      = a.gs.complete_message_history ++ appendsOf ops := by
  induction ops generalizing a with
  | nil => simp [applyHistOps, appendsOf]
  | cons op rest ih =>
    cases op with
    | append m =>
      simp only [applyHistOps, appendsOf]
      rw [ih, appendBoth_archive, List.append_assoc]
      rfl
    | trim =>
      simp only [applyHistOps, appendsOf]
      rw [ih, trimHistory_gs]

theorem trimHistory_length_le (cap : Nat) (hcap : 1 ≤ cap) (a : Agent) :
    (trimHistory cap a).chat_history.length ≤ cap := by
  unfold trimHistory
  split
  · unfold pyTakeLast
    rw [if_neg (by omega)]
    dsimp only
    rw [List.length_drop]
    omega
  · omega

theorem applyHistOps_trim_le (cap : Nat) (hcap : 1 ≤ cap) (ops : List HistOp) (a : Agent)
    (hend : endsWithTrim ops = true) :
    (applyHistOps cap ops a).chat_history.length ≤ cap := by
  induction ops generalizing a with
  | nil => cases hend
  | cons op rest ih =>
    cases rest with
    | nil =>
      cases op with
      | append m => cases hend
      | trim => exact trimHistory_length_le cap hcap a
    | cons op2 rest2 =>
      have hend' : endsWithTrim (op2 :: rest2) = true := hend
      cases op with
      | append m => exact ih _ hend'
      | trim => exact ih _ hend'

/- ===================== Claim theorems ===================== -/

/-- C1: For every turn processed by `run_turn` and every analysis cycle of
`run_analysis`, on every failure path the model covers (any `Exception`
caught by the code's handlers, at any stage of the pipeline), every
assistant message appended to the transcript that contains `tool_use`
segments is immediately followed by a user message whose `tool_result`
segments' `tool_use_id`s are exactly the set of invocation ids of that
assistant message. -/
theorem c1_tool_results_pairing :
    (∀ (cfg : AgentConfig) (env : TurnEnv) (outcome : TurnOutcome) (a : Agent),
        protocolOKb a.gs.complete_message_history = true →
        protocolOKb (runTurn cfg env outcome a).gs.complete_message_history = true) ∧
    (∀ (cfg : AgentConfig) (env : AnalysisEnv) (outcome : TurnOutcome) (ss : SchedState),
        protocolOKb ss.agent.gs.complete_message_history = true →
        protocolOKb (runAnalysis cfg env outcome ss).agent.gs.complete_message_history
          = true) :=
  ⟨runTurn_preserves_protocol, runAnalysis_preserves_protocol⟩

def cfgC1w : AgentConfig :=
  { MAX_HISTORY_MESSAGES := 30, SUMMARY_INTERVAL := 30, INITIAL_SUMMARY := true
  , CONTINUOUS_ANALYSIS_INTERVAL := 1, continuousMode := false, ENABLE_WRAPPER := false }

def respC1w : List Seg :=
  [Seg.toolUse "toolu_01" "set_game" [("game", "Pokemon Red")],
   Seg.toolUse "toolu_02" "send_inputs" [("inputs", "A")]]

/-- Witness for C1 at a concrete turn and analysis cycle. -/
theorem c1_witness :
    protocolOKb
        (runTurn cfgC1w { summaryResult := "s" } (.ok respC1w) initAgent).gs.complete_message_history
      = true ∧
    protocolOKb
        (runAnalysis cfgC1w { turnEnv := { summaryResult := "s" } } (.ok respC1w)
          ({} : SchedState)).agent.gs.complete_message_history
      = true :=
  ⟨c1_tool_results_pairing.1 cfgC1w { summaryResult := "s" } (.ok respC1w) initAgent (by decide),
   c1_tool_results_pairing.2 cfgC1w { turnEnv := { summaryResult := "s" } } (.ok respC1w)
     ({} : SchedState) (by decide)⟩

def cfgC3x : AgentConfig :=
  { MAX_HISTORY_MESSAGES := 30, SUMMARY_INTERVAL := 30, INITIAL_SUMMARY := false
  , CONTINUOUS_ANALYSIS_INTERVAL := 1, continuousMode := true, ENABLE_WRAPPER := false }

def envC3x : AnalysisEnv := { startTime := 0, endTime := 3 }

def ssC3x : SchedState := { adaptive_interval := 1 }

/-- C3 counterexample: with interval `i0 = 1.0`, duration `d = 3.0` and
floor `1.0`, a completed analysis leaves the adaptive interval at
`0.7*1.0 + 0.3*3.0 = 1.6`, not the `1.9` the claim states. -/
theorem c3_counterexample :
    (runAnalysis cfgC3x envC3x (.ok []) ssC3x).adaptive_interval ≠ 19/10 := by
  have h : (runAnalysis cfgC3x envC3x (.ok []) ssC3x).adaptive_interval
      = max ((7 : ℚ)/10 * 1 + (3 : ℚ)/10 * (3 - 0)) 1 := rfl
  rw [h, max_eq_left (by norm_num)]
  norm_num

/-- C3 (amended): after every successfully completed analysis cycle the
adaptive interval equals `max(0.7*i0 + 0.3*d, floor)`; in particular with
`i0 = 1.0`, `d = 3.0`, `floor = 1.0` it is `1.6`. -/
theorem c3_adaptive_interval :
    (∀ (cfg : AgentConfig) (env : AnalysisEnv) (resp : List Seg) (ss : SchedState)
        (res : List Seg) (pend : List String),
        processLoop env.turnEnv false (toolUsesOf resp) = .ok (res, pend) →
        (runAnalysis cfg env (.ok resp) ss).adaptive_interval =
          max ((7/10) * ss.adaptive_interval + (3/10) * (env.endTime - env.startTime))
            cfg.CONTINUOUS_ANALYSIS_INTERVAL) ∧
    (runAnalysis cfgC3x envC3x (.ok []) ssC3x).adaptive_interval = 8/5 := by
  constructor
  · intro cfg env resp ss res pend hloop
    simp only [runAnalysis, process_tool_results, hloop]
  · have h : (runAnalysis cfgC3x envC3x (.ok []) ssC3x).adaptive_interval
        = max ((7 : ℚ)/10 * 1 + (3 : ℚ)/10 * (3 - 0)) 1 := rfl
    rw [h, max_eq_left (by norm_num)]
    norm_num

/-- Witness for C3 (amended) at the claim's own numbers. -/
theorem c3_witness :
    (runAnalysis cfgC3x envC3x (.ok []) ssC3x).adaptive_interval =
      max ((7/10) * ssC3x.adaptive_interval + (3/10) * (envC3x.endTime - envC3x.startTime))
        cfgC3x.CONTINUOUS_ANALYSIS_INTERVAL :=
  c3_adaptive_interval.1 cfgC3x envC3x [] ssC3x [] [] rfl

def itemC4 : MemoryItem :=
  { id := 1, item := "saw a potion", category := none, created_at := 500000
  , updated_at := 500000, version := 1, priority := 0, confidence := 1
  , context := [], related_ids := [], source := "direct" }

def stC4 : MemState := { initMemState with memory_items := [itemC4], total_items := 1 }

/-- C4: `search_memory` does *not* floor the age: at a same-instant search
(`now = updated_at`) on a matching item the sort key computes
`1 / (now - updated_at)` with a zero denominator and the call raises
`ZeroDivisionError`, contradicting the claim that no division-by-zero error
is possible. -/
theorem c4_same_instant_division_by_zero :
    containsSub (strLower itemC4.item) (strLower "potion") = true ∧
    search_memory itemC4.updated_at "potion" none [] stC4 = .error .zeroDivisionError :=
  ⟨rfl, by decide⟩

def itemC7 : MemoryItem :=
  { id := 1, item := "found a potion", category := none, created_at := 100000
  , updated_at := 100000, version := 1, priority := 5, confidence := 1
  , context := [], related_ids := [], source := "direct" }

def stC7 : MemState := { initMemState with memory_items := [itemC7], total_items := 1 }

/-- C7: a supplied `min_priority` filter is built as a `>=` lambda but
`search_memory` compares it to the field with `==`, which is always false;
so an item matching the text query whose priority satisfies the predicate
(5 >= 1) is still excluded and the search returns nothing. -/
theorem c7_metadata_filter_bug :
    containsSub (strLower itemC7.item) (strLower "potion") = true ∧
    pyGe (itemGet itemC7 "priority") (.int 1) = true ∧
    handle_search_memory 100007 "potion" none (some 1) none stC7 = .ok [] :=
  ⟨rfl, rfl, by decide⟩

/-- C8: updating a memory id that no item carries returns `None` and leaves
the whole store (flat list, buckets, counters, every field) unchanged. -/
theorem c8_update_nonexistent_id (now : ℤ) (item_id : Nat) (nd : UpdateData)
    (st : MemState) (h : ∀ it ∈ st.memory_items, it.id ≠ item_id) :
    update_memory_item now item_id nd st = (st, none) := by
  unfold update_memory_item
  have hf : st.memory_items.find? (fun x => x.id == item_id) = none :=
    List.find?_eq_none.mpr (fun x hx => by simp [h x hx])
  rw [hf]

def stC8 : MemState := { initMemState with memory_items := [itemC4], total_items := 1 }

/-- Witness for C8 at a concrete store and missing id. -/
theorem c8_witness : update_memory_item 5 2 {} stC8 = (stC8, none) :=
  c8_update_nonexistent_id 5 2 {} stC8 (by decide)

/-- C9: the input `"R5 U2 A2"` executes exactly three holds, in order, on
R, U, A for 5, 2, 2 frames; empty and whitespace-only inputs produce no
emulator interaction and no error. -/
theorem c9_button_parse :
    pressAndReleaseButtons "R5 U2 A2"
        = holdTrace [(GBButton.R, 5), (GBButton.U, 2), (GBButton.A, 2)] ∧
    pressAndReleaseButtons "" = [] ∧
    pressAndReleaseButtons "   " = [] :=
  ⟨by decide, by decide, by decide⟩

/-- C6: transcript discipline — every append writes the same message to the
window and the archive in order, trimming never touches the archive (so the
archive after `N` appends from a fresh session has length exactly `N`), and
after any append-and-trim cycle the window holds at most the configured cap
(`cap ≥ 1`; for `cap = 0` Python's `[-0:]` slice is the whole list). -/
theorem c6_window_cap_and_archive (cap : Nat) (ops : List HistOp) (a : Agent)
    (hcap : 1 ≤ cap) :
    (applyHistOps cap ops a).gs.complete_message_history
        = a.gs.complete_message_history ++ appendsOf ops ∧
    (applyHistOps cap ops initAgent).gs.complete_message_history.length
        = (appendsOf ops).length ∧
    (endsWithTrim ops = true → (applyHistOps cap ops a).chat_history.length ≤ cap) := by
  refine ⟨applyHistOps_archive cap ops a, ?_, fun hend => applyHistOps_trim_le cap hcap ops a hend⟩
  rw [applyHistOps_archive]
  rfl

def msgC6w : Message := { role := .user, content := [Seg.text "m"] }

/-- Witness for C6 at a concrete two-append-and-trim cycle with cap 1. -/
theorem c6_witness :
    (applyHistOps 1 [.append msgC6w, .append msgC6w, .trim] initAgent).gs.complete_message_history
        = initAgent.gs.complete_message_history
          ++ appendsOf [.append msgC6w, .append msgC6w, .trim] ∧
    (applyHistOps 1 [.append msgC6w, .append msgC6w, .trim]
        initAgent).chat_history.length ≤ 1 := by
  have h := c6_window_cap_and_archive 1 [.append msgC6w, .append msgC6w, .trim] initAgent
    (by decide)
  exact ⟨h.1, h.2.2 (by decide)⟩

/-- The first content segment of a message when it is text: where
`prepare_turn_state` places the state snapshot. -/
def firstTextOf (m : Message) : Option String :=
  match m.content with
  | Seg.text s :: _ => some s
  | _ => none

def cfgC5 : AgentConfig :=
  { MAX_HISTORY_MESSAGES := 30, SUMMARY_INTERVAL := 2, INITIAL_SUMMARY := false
  , CONTINUOUS_ANALYSIS_INTERVAL := 1, continuousMode := false, ENABLE_WRAPPER := false }

def envC5 : TurnEnv := { summaryResult := "NEW" }

def agC5 : Agent :=
  { gs := { summary := "OLD", turn_count := 1 }
  , chat_history := [{ role := .user, content := [Seg.image] }] }

/-- C5 counterexample: on a summary-due turn (turn 2, interval 2) the stored
summary becomes the newly generated one, but the snapshot text inside the
turn's user message was built *before* summarization, so the model call of
that same turn does not see the updated summary in its state snapshot. -/
theorem c5_counterexample :
    summaryDue cfgC5 (agC5.gs.turn_count + 1) = true ∧
    (prepare_turn_state cfgC5 envC5 agC5).gs.summary = "NEW" ∧
    ((prepare_turn_state cfgC5 envC5 agC5).chat_history.getLast?.bind firstTextOf)
      ≠ some (get_current_state_summary (prepare_turn_state cfgC5 envC5 agC5).gs) :=
  ⟨by decide, by decide, by decide⟩

/-- C5 (amended): `prepare_turn_state` builds the snapshot text of the
turn's user message from the state *before* this turn's summarization (the
previous summary), and stores the newly generated summary afterwards, so the
updated summary is first visible in the next turn's snapshot. -/
theorem c5_snapshot_uses_pre_summary (cfg : AgentConfig) (env : TurnEnv) (a : Agent)
    (hint : 0 < cfg.SUMMARY_INTERVAL) (hne : a.chat_history ≠ []) :
    ((prepare_turn_state cfg env a).chat_history.getLast?.bind firstTextOf)
        = some (get_current_state_summary { a.gs with turn_count := a.gs.turn_count + 1 }) ∧
    (summaryDue cfg (a.gs.turn_count + 1) = true →
        (prepare_turn_state cfg env a).gs.summary = env.summaryResult) := by
  have h0 : (a.chat_history.length == 0) = false := by
    rw [beq_eq_false_iff_ne]
    simpa using hne
  constructor
  · unfold prepare_turn_state
    dsimp only
    rw [summaryStep_chat, h0]
    rw [if_neg (by simp)]
    rw [appendBoth_chat, List.getLast?_concat]
    rfl
  · intro hdue
    unfold prepare_turn_state summaryStep
    dsimp only [appendBoth]
    rw [h0]
    rw [if_neg (show ¬((false : Bool) = true) by simp)]
    dsimp only
    rw [if_pos hdue]

/-- Witness for C5 (amended) at the counterexample's concrete turn. -/
theorem c5_witness :
    ((prepare_turn_state cfgC5 envC5 agC5).chat_history.getLast?.bind firstTextOf)
        = some (get_current_state_summary
            { agC5.gs with turn_count := agC5.gs.turn_count + 1 }) ∧
    (summaryDue cfgC5 (agC5.gs.turn_count + 1) = true →
        (prepare_turn_state cfgC5 envC5 agC5).gs.summary = envC5.summaryResult) :=
  c5_snapshot_uses_pre_summary cfgC5 envC5 agC5 (by decide) (by decide)


theorem check_needed_late (now : ℤ) (st : MemState)
    (h0 : st.last_consolidated = 0) (h : now > 86400) :
    check_consolidation_needed now st = consolidate_memory now st := by
  unfold check_consolidation_needed
  have hd : decide (now - st.last_consolidated > 86400) = true := by
    rw [h0]
    exact decide_eq_true (by omega)
  simp only [hd, Bool.or_true, if_true]

theorem consolidate_singleton (now : ℤ) (st : MemState) (mi : MemoryItem)
    (h : st.memory_items = [mi]) :
    consolidate_memory now st = ({ st with last_consolidated := now }, none) := by
  unfold consolidate_memory
  rw [h]
  have hg : computeGroups [mi] = .ok [[mi]] := rfl
  rw [hg]
  dsimp only
  have hl : groupsLoop [[mi]] st = (st, none) := by
    simp [groupsLoop, mergeGroup]
  rw [hl]
  dsimp only
  rw [h]

/-- C10: on a freshly constructed `GameState`, `last_consolidated` is `0`,
so the very first `add_memory_item` (at any realistic clock reading
`now > 86400`, with a valid or absent category) satisfies the
more-than-24-hours condition and triggers `consolidate_memory`, which stamps
`last_consolidated` with the current time. -/
theorem c10_first_add_triggers_consolidation (now : ℤ) (text : String)
    (category : Option String) (md : Option MetaDict)
    (h : now > 86400)
    (hcat : pyTruthy category = false ∨ ∃ c, category = some c ∧ c ∈ memoryCategories) :
    (add_memory_item now text category md initMemState).1.last_consolidated = now := by
  rcases hcat with hf | ⟨c, hc, hmem⟩
  · unfold add_memory_item
    rw [hf]
    rw [if_neg (show ¬((false : Bool) = true) by simp)]
    dsimp only
    rw [check_needed_late _ _ rfl h]
    rw [consolidate_singleton _ _ _ rfl]
  · subst hc
    simp only [memoryCategories, List.mem_cons, List.not_mem_nil, or_false] at hmem
    rcases hmem with h1 | h1 | h1 | h1 | h1 | h1 <;> subst h1 <;>
      (unfold add_memory_item
       rw [if_pos (by decide)]
       dsimp only
       rw [if_pos (by decide)]
       rw [check_needed_late _ _ rfl h]
       rw [consolidate_singleton _ _ _ rfl])

/-- Witness for C10 at a concrete first add. -/
theorem c10_witness :
    (add_memory_item 100000 "first fact" (some "items") none
      initMemState).1.last_consolidated = 100000 :=
  c10_first_add_triggers_consolidation 100000 "first fact" (some "items") none
    (by decide) (Or.inr ⟨"items", rfl, by decide⟩)

/- ===================== Claim C2: operations, claim predicate, invariant ===================== -/

/-- One store operation of the claim: `add_memory_item`,
`update_memory_item` (as driven by `handle_update_memory_item`), or the
removal of `handle_remove_from_memory`. -/
inductive MemOp where
  | add (now : ℤ) (text : String) (category : Option String) (md : Option MetaDict)
  | update (now : ℤ) (item_id : Nat) (nd : UpdateData)
  | remove (memory_id : Nat)

/-- Apply one operation (keeping the post-state also when the Python call
would raise, as the per-invocation tool dispatch catches the exception). -/
def applyMemOp (st : MemState) : MemOp → MemState
  | .add now text cat md => (add_memory_item now text cat md st).1
  | .update now item_id nd => (update_memory_item now item_id nd st).1
  | .remove memory_id => (handle_remove_from_memory memory_id st).1

/-- Apply a sequence of operations in order. -/
def applyMemOps (ops : List MemOp) (st : MemState) : MemState :=
  ops.foldl applyMemOp st

/-- The flat list filtered by a category — the claim's reference set for a
bucket's membership. -/
def catFilter (st : MemState) (c : String) : List MemoryItem :=
  st.memory_items.filter (fun it => it.category == some c)

/-- Set equality of two lists. -/
def listSetEqB [BEq α] (l1 l2 : List α) : Bool :=
  l1.all (fun x => l2.contains x) && l2.all (fun x => l1.contains x)

/-- The claim's property of a store state: every item with a non-null
category is a member of exactly one category bucket, and each bucket's
membership equals the flat list filtered by that bucket's category. -/
def claimC2B (st : MemState) : Bool :=
  (st.memory_items.all (fun it =>
    if it.category.isSome then
      (memoryCategories.countP (fun c => (bucketOf st c).contains it)) == 1
    else true)) &&
  (memoryCategories.all (fun c => listSetEqB (bucketOf st c) (catFilter st c)))

/-- A category argument the tool interface documents: absent, or one of the
six fixed categories. -/
def validCatB (c : Option String) : Bool :=
  match c with
  | none => true
  | some s => memoryCategories.contains s

/-- The amended claim's restriction on one operation: adds use a valid or
absent category, and an update never changes an item's existing truthy
category (it may set a category on an uncategorised item, or restate the
same one). -/
def validOpB (st : MemState) : MemOp → Bool
  | .add _ _ cat _ => validCatB cat
  | .update _ item_id nd =>
    match nd.category with
    | none => true
    | some newCat =>
      (match newCat with
       | some c => memoryCategories.contains c
       | none => false) &&
      (match st.memory_items.find? (fun x => x.id == item_id) with
       | some target => target.category == none || target.category == newCat
       | none => true)
  | .remove _ => true

/-- The amended claim's restriction along a whole sequence. -/
def ValidSeqB : MemState → List MemOp → Bool
  | _, [] => true
  | st, op :: rest => validOpB st op && ValidSeqB (applyMemOp st op) rest

def opsC2x : List MemOp :=
  [.add 100000 "red potion" (some "items") none,
   .update 100001 1 { item := some "red potion", category := some (some "npcs") }]

/-- C2 counterexample: after adding a categorised item and updating its
category from `items` to `npcs`, the (aliased, mutated) item is still a
member of the old `items` bucket as well as the new `npcs` bucket — it sits
in two buckets, and the `items` bucket no longer matches the flat list's
filter. -/
theorem c2_counterexample : claimC2B (applyMemOps opsC2x initMemState) = false := by decide

/-- Valid category field of a stored item. -/
def validCatP (c : Option String) : Prop :=
  c = none ∨ ∃ s, c = some s ∧ s ∈ memoryCategories

/-- The store invariant: buckets contain exactly the categorised flat items,
ids are unique and bounded by the id counter, category fields are valid, and
the bucket keys are exactly the six fixed categories. -/
structure MemInv (st : MemState) : Prop where
  bucket_mem : ∀ c ∈ memoryCategories, ∀ x : MemoryItem,
    x ∈ bucketOf st c ↔ (x ∈ st.memory_items ∧ x.category = some c)
  flat_nodup : (st.memory_items.map MemoryItem.id).Nodup
  bucket_nodup : ∀ c ∈ memoryCategories, ((bucketOf st c).map MemoryItem.id).Nodup
  id_bound : ∀ x ∈ st.memory_items, x.id ≤ st.total_items
  cat_valid : ∀ x ∈ st.memory_items, validCatP x.category
  keys_eq : st.structured_memory.map Prod.fst = memoryCategories

theorem memInv_init : MemInv initMemState := by
  constructor
  · intro c hc x
    constructor
    · intro hx
      exfalso
      revert hx
      simp only [memoryCategories, List.mem_cons, List.not_mem_nil, or_false] at hc
      rcases hc with h | h | h | h | h | h <;> subst h <;> simp [bucketOf, alistFind, initMemState, memoryCategories]
    · intro ⟨hx, _⟩
      simp [initMemState] at hx
  · simp [initMemState]
  · intro c hc
    simp only [memoryCategories, List.mem_cons, List.not_mem_nil, or_false] at hc
    rcases hc with h | h | h | h | h | h <;> subst h <;> simp [bucketOf, alistFind, initMemState, memoryCategories]
  · intro x hx
    simp [initMemState] at hx
  · intro x hx
    simp [initMemState] at hx
  · decide

theorem alistFind_map_val (l : List (String × α)) (g : α → β) (k : String) :
    alistFind (l.map (fun p => (p.1, g p.2))) k = (alistFind l k).map g := by
  induction l with
  | nil => rfl
  | cons p rest ih =>
    by_cases hk : (p.1 == k) = true <;> simp [alistFind, hk, ih]

theorem alistSet_keys (l : List (String × α)) (k : String) (f : α → α) :
    (alistSet l k f).map Prod.fst = l.map Prod.fst := by
  induction l with
  | nil => rfl
  | cons p rest ih =>
    by_cases hk : p.1 = k <;> simp [alistSet, hk] <;> simpa [alistSet] using ih

theorem alistFind_set_ne (l : List (String × α)) (k k' : String) (f : α → α)
    (h : k' ≠ k) : alistFind (alistSet l k f) k' = alistFind l k' := by
  induction l with
  | nil => rfl
  | cons p rest ih =>
    simp only [alistSet, beq_iff_eq] at ih ⊢
    by_cases hpk : p.1 = k
    · simp [alistFind, hpk, Ne.symm h, ih]
    · by_cases hpk' : p.1 = k'
      · simp [alistFind, hpk, hpk', h]
      · simp [alistFind, hpk, hpk', ih]

theorem alistFind_set_eq (l : List (String × α)) (k : String) (f : α → α) :
    alistFind (alistSet l k f) k = (alistFind l k).map f := by
  induction l with
  | nil => rfl
  | cons p rest ih =>
    simp only [alistSet, beq_iff_eq] at ih ⊢
    by_cases hpk : p.1 = k
    · simp [alistFind, hpk]
    · simp [alistFind, hpk, ih]

theorem mapById_map_id (k : Nat) (f : MemoryItem → MemoryItem)
    (hid : ∀ x, (f x).id = x.id) (l : List MemoryItem) :
    (mapById k f l).map MemoryItem.id = l.map MemoryItem.id := by
  unfold mapById
  rw [List.map_map]
  exact List.map_congr_left (fun x _ => by
    by_cases hk : x.id = k <;> simp [hk, hid])

theorem bucketOf_mutate (k : Nat) (f : MemoryItem → MemoryItem) (st : MemState)
    (c : String) :
    bucketOf (mutateEverywhere k f st) c = mapById k f (bucketOf st c) := by
  unfold bucketOf mutateEverywhere
  dsimp only
  rw [alistFind_map_val]
  cases alistFind st.structured_memory c <;> rfl

theorem memInv_mutate {st : MemState} (inv : MemInv st) (k : Nat)
    (f : MemoryItem → MemoryItem) (hid : ∀ x, (f x).id = x.id)
    (hcat : ∀ x ∈ st.memory_items, x.id = k → (f x).category = x.category) :
    MemInv (mutateEverywhere k f st) := by
  have hflat : (mutateEverywhere k f st).memory_items = mapById k f st.memory_items := rfl
  constructor
  · intro c hc y
    rw [bucketOf_mutate, hflat]
    unfold mapById
    simp only [List.mem_map]
    constructor
    · rintro ⟨x, hx, rfl⟩
      have hx' := (inv.bucket_mem c hc x).mp hx
      refine ⟨⟨x, hx'.1, rfl⟩, ?_⟩
      by_cases hxk : x.id = k
      · simp [hxk, hcat x hx'.1 hxk, hx'.2]
      · simp [hxk, hx'.2]
    · rintro ⟨⟨x, hx, rfl⟩, hcaty⟩
      refine ⟨x, (inv.bucket_mem c hc x).mpr ⟨hx, ?_⟩, rfl⟩
      by_cases hxk : x.id = k
      · simpa [hxk, hcat x hx hxk] using hcaty
      · simpa [hxk] using hcaty
  · rw [hflat, mapById_map_id k f hid]
    exact inv.flat_nodup
  · intro c hc
    rw [bucketOf_mutate, mapById_map_id k f hid]
    exact inv.bucket_nodup c hc
  · intro x hx
    rw [hflat] at hx
    obtain ⟨x', hx', rfl⟩ := List.mem_map.mp hx
    have hb := inv.id_bound x' hx'
    show (if x'.id = k then f x' else x').id ≤ (mutateEverywhere k f st).total_items
    by_cases hxk : x'.id = k <;> simpa [hxk, hid] using hb
  · intro x hx
    rw [hflat] at hx
    obtain ⟨x', hx', rfl⟩ := List.mem_map.mp hx
    have hv := inv.cat_valid x' hx'
    show validCatP (if x'.id = k then f x' else x').category
    by_cases hxk : x'.id = k
    · simpa [hxk, hcat x' hx' hxk] using hv
    · simpa [hxk] using hv
  · show (st.structured_memory.map (fun p => (p.1, mapById k f p.2))).map Prod.fst
        = memoryCategories
    rw [List.map_map]
    rw [show (Prod.fst ∘ fun p : String × List MemoryItem => (p.1, mapById k f p.2))
        = Prod.fst from rfl]
    exact inv.keys_eq

theorem alistFind_isSome (l : List (String × α)) (k : String) :
    (alistFind l k).isSome = (l.map Prod.fst).contains k := by
  induction l with
  | nil => rfl
  | cons p rest ih =>
    by_cases hk : p.1 = k
    · simp [alistFind, hk]
    · simp [alistFind, hk, ih, List.contains_cons, Ne.symm hk]

theorem nodup_values_of_ids {l : List MemoryItem}
    (h : (l.map MemoryItem.id).Nodup) : l.Nodup :=
  List.Nodup.of_map _ h

theorem erase_ids_nodup {l : List MemoryItem} (e : MemoryItem)
    (h : (l.map MemoryItem.id).Nodup) : ((l.erase e).map MemoryItem.id).Nodup :=
  List.Nodup.sublist (List.Sublist.map _ (List.erase_sublist e l)) h

theorem memInv_erase_uncat {st st' : MemState} (inv : MemInv st) (e : MemoryItem)
    (hcat : pyTruthy e.category = false)
    (hflat : st'.memory_items = st.memory_items.erase e)
    (hsm : st'.structured_memory = st.structured_memory)
    (htot : st'.total_items = st.total_items) :
    MemInv st' := by
  have hbucket : ∀ c, bucketOf st' c = bucketOf st c := by
    intro c
    unfold bucketOf
    rw [hsm]
  constructor
  · intro c hc x
    rw [hbucket, inv.bucket_mem c hc x, hflat]
    have hxe : x.category = some c → x ≠ e := by
      intro hxc hxe
      subst hxe
      rw [hxc] at hcat
      have hcne : c ≠ "" := by
        intro hce
        subst hce
        revert hc
        decide
      simp [pyTruthy, hcne] at hcat
    constructor
    · intro ⟨hx, hcx⟩
      exact ⟨(List.mem_erase_of_ne (hxe hcx)).mpr hx, hcx⟩
    · intro ⟨hx, hcx⟩
      exact ⟨(List.mem_erase_of_ne (hxe hcx)).mp hx, hcx⟩
  · rw [hflat]
    exact erase_ids_nodup e inv.flat_nodup
  · intro c hc
    rw [hbucket]
    exact inv.bucket_nodup c hc
  · intro x hx
    rw [hflat] at hx
    rw [htot]
    exact inv.id_bound x (List.mem_of_mem_erase hx)
  · intro x hx
    rw [hflat] at hx
    exact inv.cat_valid x (List.mem_of_mem_erase hx)
  · rw [hsm]
    exact inv.keys_eq

theorem memInv_erase_cat {st st' : MemState} (inv : MemInv st) (e : MemoryItem)
    (c : String) (hcat : e.category = some c) (hc : c ∈ memoryCategories)
    (hflat : st'.memory_items = st.memory_items.erase e)
    (hsm : st'.structured_memory
      = alistSet st.structured_memory c (fun _ => (bucketOf st c).erase e))
    (htot : st'.total_items = st.total_items) :
    MemInv st' := by
  have hsome : (alistFind st.structured_memory c).isSome = true := by
    rw [alistFind_isSome, inv.keys_eq]
    exact List.elem_iff.mpr hc
  obtain ⟨b0, hb0⟩ := Option.isSome_iff_exists.mp hsome
  have hb0' : bucketOf st c = b0 := by
    unfold bucketOf
    rw [hb0]
    rfl
  have hbucket_self : bucketOf st' c = (bucketOf st c).erase e := by
    unfold bucketOf
    rw [hsm, alistFind_set_eq, hb0]
    rw [hb0']
    rfl
  have hbucket_other : ∀ c', c' ≠ c → bucketOf st' c' = bucketOf st c' := by
    intro c' hne
    unfold bucketOf
    rw [hsm, alistFind_set_ne _ _ _ _ hne]
  constructor
  · intro c' hc' x
    by_cases hcc : c' = c
    · subst hcc
      rw [hbucket_self, hflat]
      have hbn : (bucketOf st c').Nodup := nodup_values_of_ids (inv.bucket_nodup c' hc')
      have hfn : st.memory_items.Nodup := nodup_values_of_ids inv.flat_nodup
      rw [List.Nodup.mem_erase_iff hbn, inv.bucket_mem c' hc' x]
      constructor
      · intro ⟨hne, hx, hcx⟩
        exact ⟨(List.Nodup.mem_erase_iff hfn).mpr ⟨hne, hx⟩, hcx⟩
      · intro ⟨hx, hcx⟩
        obtain ⟨hne, hx'⟩ := (List.Nodup.mem_erase_iff hfn).mp hx
        exact ⟨hne, hx', hcx⟩
    · rw [hbucket_other c' hcc, inv.bucket_mem c' hc' x, hflat]
      have hxe : x.category = some c' → x ≠ e := by
        intro hxc hxe
        subst hxe
        rw [hxc] at hcat
        exact hcc (Option.some.inj hcat)
      constructor
      · intro ⟨hx, hcx⟩
        exact ⟨(List.mem_erase_of_ne (hxe hcx)).mpr hx, hcx⟩
      · intro ⟨hx, hcx⟩
        exact ⟨(List.mem_erase_of_ne (hxe hcx)).mp hx, hcx⟩
  · rw [hflat]
    exact erase_ids_nodup e inv.flat_nodup
  · intro c' hc'
    by_cases hcc : c' = c
    · subst hcc
      rw [hbucket_self]
      exact erase_ids_nodup e (inv.bucket_nodup c' hc')
    · rw [hbucket_other c' hcc]
      exact inv.bucket_nodup c' hc'
  · intro x hx
    rw [hflat] at hx
    rw [htot]
    exact inv.id_bound x (List.mem_of_mem_erase hx)
  · intro x hx
    rw [hflat] at hx
    exact inv.cat_valid x (List.mem_of_mem_erase hx)
  · rw [hsm, alistSet_keys]
    exact inv.keys_eq

theorem mem_mapById_of_ne {l : List MemoryItem} {y : MemoryItem} (k : Nat)
    (f : MemoryItem → MemoryItem) (hy : y ∈ l) (hne : y.id ≠ k) :
    y ∈ mapById k f l := by
  unfold mapById
  exact List.mem_map.mpr ⟨y, hy, by simp [hne]⟩

theorem mergeOne_ok {st : MemState} (inv : MemInv st) (pk : Nat) (it : MemoryItem)
    (hit : it ∈ st.memory_items) (hne : it.id ≠ pk) :
    MemInv (mergeOne pk it st).1 ∧ (mergeOne pk it st).2 = none ∧
    (mergeOne pk it st).1.total_items = st.total_items ∧
    (∀ y, y ∈ st.memory_items → y.id ≠ it.id → y.id ≠ pk →
      y ∈ (mergeOne pk it st).1.memory_items) := by
  unfold mergeOne
  set f := (fun p : MemoryItem =>
    { p with related_ids := p.related_ids ++ it.related_ids
           , context := dictUpdate p.context it.context }) with hf
  set st1 := mutateEverywhere pk f st with hst1
  have inv1 : MemInv st1 := memInv_mutate inv pk f (fun x => rfl) (fun x _ _ => rfl)
  have hit1 : it ∈ st1.memory_items := mem_mapById_of_ne pk f hit hne
  have hrem : pyListRemove it st1.memory_items = .ok (st1.memory_items.erase it) := by
    unfold pyListRemove
    rw [if_pos hit1]
  dsimp only
  rw [hrem]
  dsimp only
  have hframe : ∀ y, y ∈ st.memory_items → y.id ≠ it.id → y.id ≠ pk →
      y ∈ st1.memory_items.erase it := by
    intro y hy hyid hypk
    have hy1 : y ∈ st1.memory_items := mem_mapById_of_ne pk f hy hypk
    have hyne : y ≠ it := fun hc => hyid (congrArg MemoryItem.id hc)
    exact (List.mem_erase_of_ne hyne).mpr hy1
  by_cases htruthy : pyTruthy it.category = true
  · have hcatsome : ∃ c, it.category = some c ∧ c ∈ memoryCategories := by
      rcases inv.cat_valid it hit with hnone | ⟨s, hs, hsmem⟩
      · rw [hnone] at htruthy
        simp [pyTruthy] at htruthy
      · exact ⟨s, hs, hsmem⟩
    obtain ⟨c, hc, hcm⟩ := hcatsome
    rw [if_pos htruthy, hc]
    dsimp only
    have hsome1 : (alistFind st1.structured_memory c).isSome = true := by
      rw [alistFind_isSome, inv1.keys_eq]
      exact List.elem_iff.mpr hcm
    obtain ⟨b0, hb0⟩ := Option.isSome_iff_exists.mp hsome1
    have hb0' : bucketOf st1 c = b0 := by
      unfold bucketOf
      rw [show (st1.structured_memory) = st1.structured_memory from rfl, hb0]
      rfl
    rw [hb0]
    dsimp only
    have hitb : it ∈ b0 := by
      rw [← hb0']
      exact (inv1.bucket_mem c hcm it).mpr ⟨hit1, hc⟩
    have hremb : pyListRemove it b0 = .ok (b0.erase it) := by
      unfold pyListRemove
      rw [if_pos hitb]
    rw [hremb]
    refine ⟨?_, rfl, rfl, hframe⟩
    refine memInv_erase_cat inv1 it c hc hcm rfl ?_ rfl
    rw [hb0']
  · rw [if_neg htruthy]
    refine ⟨?_, rfl, rfl, hframe⟩
    exact memInv_erase_uncat inv1 it (by simpa using htruthy) rfl rfl rfl

theorem mergeLoop_ok {st : MemState} (inv : MemInv st) (pk : Nat)
    (lst : List MemoryItem)
    (hmem : ∀ x ∈ lst, x.id ≠ pk → x ∈ st.memory_items)
    (hnd : (lst.map MemoryItem.id).Nodup) :
    MemInv (mergeLoop pk lst st).1 ∧ (mergeLoop pk lst st).2 = none ∧
    (mergeLoop pk lst st).1.total_items = st.total_items ∧
    (∀ y, y ∈ st.memory_items → y.id ∉ lst.map MemoryItem.id → y.id ≠ pk →
      y ∈ (mergeLoop pk lst st).1.memory_items) := by
  induction lst generalizing st with
  | nil => exact ⟨inv, rfl, rfl, fun y hy _ _ => hy⟩
  | cons it rest ih =>
    unfold mergeLoop
    by_cases hpk : it.id = pk
    · rw [if_neg (by simpa using hpk)]
      have ihr := ih inv (fun x hx => hmem x (List.mem_cons_of_mem it hx))
        (List.Nodup.of_cons hnd)
      exact ⟨ihr.1, ihr.2.1, ihr.2.2.1, fun y hy hnin hyp =>
        ihr.2.2.2 y hy (fun hc => hnin (List.mem_cons_of_mem _ hc)) hyp⟩
    · rw [if_pos (by simpa using hpk)]
      have hitm : it ∈ st.memory_items := hmem it (List.mem_cons_self it rest) hpk
      have hone := mergeOne_ok inv pk it hitm hpk
      have hpair : mergeOne pk it st = ((mergeOne pk it st).1, none) := by
        rw [← hone.2.1]
      rw [hpair]
      dsimp only
      have hmem' : ∀ x ∈ rest, x.id ≠ pk → x ∈ (mergeOne pk it st).1.memory_items := by
        intro x hx hxpk
        refine hone.2.2.2 x (hmem x (List.mem_cons_of_mem it hx) hxpk) ?_ hxpk
        intro hxid
        have := List.nodup_cons.mp hnd
        exact this.1 (hxid ▸ List.mem_map_of_mem MemoryItem.id hx)
      have ihr := ih hone.1 hmem' (List.Nodup.of_cons hnd)
      refine ⟨ihr.1, ihr.2.1, by rw [ihr.2.2.1, hone.2.2.1], ?_⟩
      intro y hy hnin hyp
      have hyit : y.id ≠ it.id := by
        intro hc
        exact hnin (by simp [hc])
      have hy1 : y ∈ (mergeOne pk it st).1.memory_items :=
        hone.2.2.2 y hy hyit hyp
      exact ihr.2.2.2 y hy1 (fun hc => hnin (List.mem_cons_of_mem _ hc)) hyp

theorem pyMax_mem (h : MemoryItem) (t : List MemoryItem) :
    pyMax h t ∈ h :: t := by
  unfold pyMax
  suffices H : ∀ (l : List MemoryItem) (b : MemoryItem), b ∈ h :: t →
      (∀ x ∈ l, x ∈ h :: t) →
      (l.foldl (fun best x => if ltKey (consKey best) (consKey x) then x else best) b)
        ∈ h :: t by
    exact H t h (List.mem_cons_self h t) (fun x hx => List.mem_cons_of_mem h hx)
  intro l
  induction l with
  | nil => intro b hb _; exact hb
  | cons a l2 ih2 =>
    intro b hb hl
    simp only [List.foldl_cons]
    by_cases hlt : ltKey (consKey b) (consKey a) = true
    · rw [if_pos hlt]
      exact ih2 a (hl a (List.mem_cons_self a l2)) (fun x hx => hl x (List.mem_cons_of_mem a hx))
    · rw [if_neg hlt]
      exact ih2 b hb (fun x hx => hl x (List.mem_cons_of_mem a hx))

theorem mergeGroup_ok {st : MemState} (inv : MemInv st) (g : List MemoryItem)
    (hmem : ∀ x ∈ g, x ∈ st.memory_items)
    (hnd : (g.map MemoryItem.id).Nodup) :
    MemInv (mergeGroup st g).1 ∧ (mergeGroup st g).2 = none ∧
    (mergeGroup st g).1.total_items = st.total_items ∧
    (∀ y, y ∈ st.memory_items → y.id ∉ g.map MemoryItem.id →
      y ∈ (mergeGroup st g).1.memory_items) := by
  unfold mergeGroup
  by_cases hlen : g.length > 1
  · rw [if_pos hlen]
    match g, hmem, hnd with
    | [], hmem, hnd => exact ⟨inv, rfl, rfl, fun y hy _ => hy⟩
    | h :: t, hmem, hnd =>
      have hpkmem : pyMax h t ∈ h :: t := pyMax_mem h t
      have hml := mergeLoop_ok inv (pyMax h t).id (h :: t)
        (fun x hx _ => hmem x hx) hnd
      refine ⟨hml.1, hml.2.1, hml.2.2.1, ?_⟩
      intro y hy hnin
      refine hml.2.2.2 y hy hnin ?_
      intro hc
      exact hnin (hc ▸ List.mem_map_of_mem MemoryItem.id hpkmem)
  · rw [if_neg hlen]
    exact ⟨inv, rfl, rfl, fun y hy _ => hy⟩

theorem groupsLoop_ok {st : MemState} (inv : MemInv st)
    (groups : List (List MemoryItem))
    (hmem : ∀ g ∈ groups, ∀ x ∈ g, x ∈ st.memory_items)
    (hnd : (groups.flatten.map MemoryItem.id).Nodup) :
    MemInv (groupsLoop groups st).1 ∧ (groupsLoop groups st).2 = none ∧
    (groupsLoop groups st).1.total_items = st.total_items := by
  induction groups generalizing st with
  | nil => exact ⟨inv, rfl, rfl⟩
  | cons g rest ih =>
    unfold groupsLoop
    have hndflat : (g.map MemoryItem.id ++ rest.flatten.map MemoryItem.id).Nodup := by
      simpa [List.flatten_cons] using hnd
    have hndg : (g.map MemoryItem.id).Nodup := (List.nodup_append.mp hndflat).1
    have hgr := mergeGroup_ok inv g (hmem g (List.mem_cons_self g rest)) hndg
    have hpair : mergeGroup st g = ((mergeGroup st g).1, none) := by
      rw [← hgr.2.1]
    rw [hpair]
    dsimp only
    have hmem' : ∀ g' ∈ rest, ∀ x ∈ g', x ∈ (mergeGroup st g).1.memory_items := by
      intro g' hg' x hx
      refine hgr.2.2.2 x (hmem g' (List.mem_cons_of_mem g hg') x hx) ?_
      intro hid
      exact (List.nodup_append.mp hndflat).2.2 hid
        (List.mem_map_of_mem MemoryItem.id (List.mem_flatten.mpr ⟨g', hg', hx⟩))
    have hndrest : (rest.flatten.map MemoryItem.id).Nodup :=
      (List.nodup_append.mp hndflat).2.1
    have ihr := ih hgr.1 hmem' hndrest
    exact ⟨ihr.1, ihr.2.1, by rw [ihr.2.2, hgr.2.2.1]⟩

theorem insertIntoGroups_perm (it : MemoryItem) :
    ∀ (gs gs' : List (List MemoryItem)), insertIntoGroups it gs = .ok gs' →
    gs'.flatten.Perm (it :: gs.flatten) := by
  intro gs
  induction gs with
  | nil =>
    intro gs' h
    unfold insertIntoGroups at h
    simp only [Except.ok.injEq] at h
    subst h
    simp
  | cons g rest ih =>
    intro gs' h
    unfold insertIntoGroups at h
    match hj : jaccardGT (wordSet it.item) (headTerms g) with
    | .error e =>
      rw [hj] at h
      exact absurd h (by simp)
    | .ok b =>
      rw [hj] at h
      match b with
      | true =>
        simp only [Except.ok.injEq] at h
        subst h
        rw [List.flatten_cons, List.flatten_cons, List.append_assoc]
        have h1 : ([it] ++ rest.flatten) = it :: rest.flatten := rfl
        rw [h1]
        exact List.perm_middle
      | false =>
        match hr : insertIntoGroups it rest with
        | .error e =>
          rw [hr] at h
          exact absurd h (by simp)
        | .ok rest' =>
          rw [hr] at h
          simp only [Except.ok.injEq] at h
          subst h
          rw [List.flatten_cons, List.flatten_cons]
          exact (List.Perm.append_left g (ih rest' hr)).trans List.perm_middle

theorem computeGroups_perm_aux (items : List MemoryItem) :
    ∀ (gs0 groups : List (List MemoryItem)),
    items.foldlM (fun groups it => insertIntoGroups it groups) gs0 = .ok groups →
    groups.flatten.Perm (gs0.flatten ++ items) := by
  induction items with
  | nil =>
    intro gs0 groups h
    simp only [List.foldlM_nil, pure, Except.pure, Except.ok.injEq] at h
    subst h
    simp
  | cons it rest ih =>
    intro gs0 groups h
    rw [List.foldlM_cons] at h
    match hi : insertIntoGroups it gs0 with
    | .error e =>
      rw [hi] at h
      exact absurd h (by simp [Bind.bind, Except.bind])
    | .ok gs1 =>
      rw [hi] at h
      have h' : rest.foldlM (fun groups it => insertIntoGroups it groups) gs1
          = .ok groups := h
      have step1 : groups.flatten.Perm (gs1.flatten ++ rest) := ih gs1 groups h'
      have step2 : (gs1.flatten ++ rest).Perm ((it :: gs0.flatten) ++ rest) :=
        List.Perm.append_right rest (insertIntoGroups_perm it gs0 gs1 hi)
      have step3 : ((it :: gs0.flatten) ++ rest) = it :: (gs0.flatten ++ rest) := rfl
      exact ((step1.trans step2).trans (step3 ▸ List.perm_middle.symm))

theorem computeGroups_perm {items : List MemoryItem}
    {groups : List (List MemoryItem)} (h : computeGroups items = .ok groups) :
    groups.flatten.Perm items := by
  simpa using computeGroups_perm_aux items [] groups h

theorem consolidate_memInv {st : MemState} (inv : MemInv st) (now : ℤ) :
    MemInv (consolidate_memory now st).1 ∧
    (consolidate_memory now st).1.total_items = st.total_items := by
  unfold consolidate_memory
  match hg : computeGroups st.memory_items with
  | .error e => exact ⟨inv, rfl⟩
  | .ok groups =>
    dsimp only
    have hperm := computeGroups_perm hg
    have hmem : ∀ g ∈ groups, ∀ x ∈ g, x ∈ st.memory_items := by
      intro g hg' x hx
      exact hperm.mem_iff.mp (List.mem_flatten.mpr ⟨g, hg', hx⟩)
    have hnd : (groups.flatten.map MemoryItem.id).Nodup :=
      (hperm.map MemoryItem.id).nodup_iff.mpr inv.flat_nodup
    have hgl := groupsLoop_ok inv groups hmem hnd
    have hpair : groupsLoop groups st = ((groupsLoop groups st).1, none) := by
      rw [← hgl.2.1]
    rw [hpair]
    dsimp only
    refine ⟨?_, hgl.2.2⟩
    rcases hgl.1 with ⟨h1, h2, h3, h4, h5, h6⟩
    exact ⟨h1, h2, h3, h4, h5, h6⟩

theorem check_consolidation_memInv {st : MemState} (inv : MemInv st) (now : ℤ) :
    MemInv (check_consolidation_needed now st).1 ∧
    (check_consolidation_needed now st).1.total_items = st.total_items := by
  unfold check_consolidation_needed
  dsimp only
  by_cases hs : ((decide (st.memory_items.length > 100) &&
      decide (now - st.last_consolidated > 3600)) ||
    (st.category_counts.any (fun p => decide (p.2 > 50))) ||
    decide (now - st.last_consolidated > 86400)) = true
  · rw [if_pos hs]
    exact consolidate_memInv inv now
  · rw [if_neg hs]
    exact ⟨inv, rfl⟩

theorem truthy_of_cat {c : String} (hc : c ∈ memoryCategories) :
    pyTruthy (some c) = true := by
  fin_cases hc <;> decide

theorem append_ids_nodup {l : List MemoryItem} {n : Nat} {item : MemoryItem}
    (hnd : (l.map MemoryItem.id).Nodup) (hb : ∀ x ∈ l, x.id ≤ n)
    (hid : item.id = n + 1) : ((l ++ [item]).map MemoryItem.id).Nodup := by
  rw [List.map_append, List.nodup_append]
  refine ⟨hnd, by simp, ?_⟩
  intro a ha hmem
  obtain ⟨x, hx, rfl⟩ := List.mem_map.mp ha
  simp only [List.map_cons, List.map_nil, List.mem_cons, List.not_mem_nil, or_false] at hmem
  have := hb x hx
  omega

theorem memInv_append_uncat {st st' : MemState} (inv : MemInv st) (item : MemoryItem)
    (hid : item.id = st.total_items + 1) (hcat : item.category = none)
    (hflat : st'.memory_items = st.memory_items ++ [item])
    (hsm : st'.structured_memory = st.structured_memory)
    (htot : st'.total_items = st.total_items + 1) :
    MemInv st' := by
  have hbucket : ∀ c, bucketOf st' c = bucketOf st c := by
    intro c
    unfold bucketOf
    rw [hsm]
  constructor
  · intro c hc x
    rw [hbucket, inv.bucket_mem c hc x, hflat]
    constructor
    · intro ⟨hx, hcx⟩
      exact ⟨List.mem_append_left _ hx, hcx⟩
    · rintro ⟨hx, hcx⟩
      rcases List.mem_append.mp hx with hx | hx
      · exact ⟨hx, hcx⟩
      · exfalso
        rw [List.mem_singleton] at hx
        subst hx
        rw [hcat] at hcx
        exact Option.noConfusion hcx
  · rw [hflat]
    exact append_ids_nodup inv.flat_nodup inv.id_bound hid
  · intro c hc
    rw [hbucket]
    exact inv.bucket_nodup c hc
  · intro x hx
    rw [hflat] at hx
    rw [htot]
    rcases List.mem_append.mp hx with hx | hx
    · exact Nat.le_succ_of_le (inv.id_bound x hx)
    · rw [List.mem_singleton] at hx
      subst hx
      omega
  · intro x hx
    rw [hflat] at hx
    rcases List.mem_append.mp hx with hx | hx
    · exact inv.cat_valid x hx
    · rw [List.mem_singleton] at hx
      subst hx
      exact Or.inl hcat
  · rw [hsm]
    exact inv.keys_eq

theorem memInv_append_cat {st st' : MemState} (inv : MemInv st) (item : MemoryItem)
    (c : String) (hid : item.id = st.total_items + 1) (hcat : item.category = some c)
    (hc : c ∈ memoryCategories)
    (hflat : st'.memory_items = st.memory_items ++ [item])
    (hsm : st'.structured_memory = alistSet st.structured_memory c (fun b => b ++ [item]))
    (htot : st'.total_items = st.total_items + 1) :
    MemInv st' := by
  have hsome : (alistFind st.structured_memory c).isSome = true := by
    rw [alistFind_isSome, inv.keys_eq]
    exact List.elem_iff.mpr hc
  obtain ⟨b0, hb0⟩ := Option.isSome_iff_exists.mp hsome
  have hb0' : bucketOf st c = b0 := by
    unfold bucketOf
    rw [hb0]
    rfl
  have hbc : bucketOf st' c = b0 ++ [item] := by
    unfold bucketOf
    rw [hsm, alistFind_set_eq, hb0]
    rfl
  have hbne : ∀ c', c' ≠ c → bucketOf st' c' = bucketOf st c' := by
    intro c' hne
    unfold bucketOf
    rw [hsm, alistFind_set_ne _ _ _ _ hne]
  constructor
  · intro c' hc' x
    by_cases hcc : c' = c
    · subst hcc
      rw [hbc, hflat]
      simp only [List.mem_append, List.mem_singleton]
      constructor
      · rintro (hx | rfl)
        · have hm := (inv.bucket_mem c' hc' x).mp (by rw [hb0']; exact hx)
          exact ⟨Or.inl hm.1, hm.2⟩
        · exact ⟨Or.inr rfl, hcat⟩
      · rintro ⟨hx | rfl, hcx⟩
        · left
          have hm : x ∈ bucketOf st c' := (inv.bucket_mem c' hc' x).mpr ⟨hx, hcx⟩
          rw [hb0'] at hm
          exact hm
        · right
          rfl
    · rw [hbne c' hcc, inv.bucket_mem c' hc' x, hflat]
      constructor
      · intro ⟨hx, hcx⟩
        exact ⟨List.mem_append_left _ hx, hcx⟩
      · rintro ⟨hx, hcx⟩
        rcases List.mem_append.mp hx with hx | hx
        · exact ⟨hx, hcx⟩
        · exfalso
          rw [List.mem_singleton] at hx
          subst hx
          rw [hcat] at hcx
          exact hcc (Option.some.inj hcx).symm
  · rw [hflat]
    exact append_ids_nodup inv.flat_nodup inv.id_bound hid
  · intro c' hc'
    by_cases hcc : c' = c
    · subst hcc
      rw [hbc]
      refine append_ids_nodup ?_ ?_ hid
      · rw [← hb0']
        exact inv.bucket_nodup c' hc'
      · intro x hx
        have hxf : x ∈ st.memory_items :=
          ((inv.bucket_mem c' hc' x).mp (by rw [hb0']; exact hx)).1
        exact inv.id_bound x hxf
    · rw [hbne c' hcc]
      exact inv.bucket_nodup c' hc'
  · intro x hx
    rw [hflat] at hx
    rw [htot]
    rcases List.mem_append.mp hx with hx | hx
    · exact Nat.le_succ_of_le (inv.id_bound x hx)
    · rw [List.mem_singleton] at hx
      subst hx
      omega
  · intro x hx
    rw [hflat] at hx
    rcases List.mem_append.mp hx with hx | hx
    · exact inv.cat_valid x hx
    · rw [List.mem_singleton] at hx
      subst hx
      exact Or.inr ⟨c, hcat, hc⟩
  · rw [hsm, alistSet_keys]
    exact inv.keys_eq

theorem add_memInv {st : MemState} (inv : MemInv st) (now : ℤ) (text : String)
    (cat : Option String) (md : Option MetaDict)
    (hvc : validCatB cat = true) :
    MemInv (add_memory_item now text cat md st).1 := by
  unfold add_memory_item
  dsimp only
  cases cat with
  | none =>
    rw [if_neg (show ¬(pyTruthy none = true) by simp [pyTruthy])]
    rcases hcc : check_consolidation_needed now
        { st with
          memory_items := st.memory_items ++
            [{ id := st.total_items + 1, item := text, category := none,
               created_at := now, updated_at := now, version := 1,
               priority := ((md.bind MetaDict.priority).getD 0),
               confidence := ((md.bind MetaDict.confidence).getD 1),
               context := ((md.bind MetaDict.context).getD []),
               related_ids := ((md.bind MetaDict.related_ids).getD []),
               source := ((md.bind MetaDict.source).getD "direct") }]
          total_items := st.total_items + 1 } with ⟨st4, r⟩
    have h4 : _ = st4 := congrArg Prod.fst hcc
    have hinv3 : MemInv ({ st with
          memory_items := st.memory_items ++
            [{ id := st.total_items + 1, item := text, category := none,
               created_at := now, updated_at := now, version := 1,
               priority := ((md.bind MetaDict.priority).getD 0),
               confidence := ((md.bind MetaDict.confidence).getD 1),
               context := ((md.bind MetaDict.context).getD []),
               related_ids := ((md.bind MetaDict.related_ids).getD []),
               source := ((md.bind MetaDict.source).getD "direct") }]
          total_items := st.total_items + 1 } : MemState) :=
      memInv_append_uncat inv _ rfl rfl rfl rfl rfl
    cases r <;> exact h4 ▸ (check_consolidation_memInv hinv3 now).1
  | some c =>
    have hc : c ∈ memoryCategories := by
      have : memoryCategories.contains c = true := hvc
      exact List.elem_iff.mp this
    rw [if_pos (truthy_of_cat hc)]
    dsimp only
    have hsome : (alistFind st.structured_memory c).isSome = true := by
      rw [alistFind_isSome, inv.keys_eq]
      exact List.elem_iff.mpr hc
    rw [if_pos hsome]
    rcases hcc : check_consolidation_needed now
        { st with
          memory_items := st.memory_items ++
            [{ id := st.total_items + 1, item := text, category := some c,
               created_at := now, updated_at := now, version := 1,
               priority := ((md.bind MetaDict.priority).getD 0),
               confidence := ((md.bind MetaDict.confidence).getD 1),
               context := ((md.bind MetaDict.context).getD []),
               related_ids := ((md.bind MetaDict.related_ids).getD []),
               source := ((md.bind MetaDict.source).getD "direct") }]
          structured_memory := alistSet st.structured_memory c (fun b => b ++
            [{ id := st.total_items + 1, item := text, category := some c,
               created_at := now, updated_at := now, version := 1,
               priority := ((md.bind MetaDict.priority).getD 0),
               confidence := ((md.bind MetaDict.confidence).getD 1),
               context := ((md.bind MetaDict.context).getD []),
               related_ids := ((md.bind MetaDict.related_ids).getD []),
               source := ((md.bind MetaDict.source).getD "direct") }])
          category_counts := alistSet st.category_counts c (fun n => n + 1)
          total_items := st.total_items + 1 } with ⟨st4, r⟩
    have h4 : _ = st4 := congrArg Prod.fst hcc
    have hinv3 : MemInv ({ st with
          memory_items := st.memory_items ++
            [{ id := st.total_items + 1, item := text, category := some c,
               created_at := now, updated_at := now, version := 1,
               priority := ((md.bind MetaDict.priority).getD 0),
               confidence := ((md.bind MetaDict.confidence).getD 1),
               context := ((md.bind MetaDict.context).getD []),
               related_ids := ((md.bind MetaDict.related_ids).getD []),
               source := ((md.bind MetaDict.source).getD "direct") }]
          structured_memory := alistSet st.structured_memory c (fun b => b ++
            [{ id := st.total_items + 1, item := text, category := some c,
               created_at := now, updated_at := now, version := 1,
               priority := ((md.bind MetaDict.priority).getD 0),
               confidence := ((md.bind MetaDict.confidence).getD 1),
               context := ((md.bind MetaDict.context).getD []),
               related_ids := ((md.bind MetaDict.related_ids).getD []),
               source := ((md.bind MetaDict.source).getD "direct") }])
          category_counts := alistSet st.category_counts c (fun n => n + 1)
          total_items := st.total_items + 1 } : MemState) :=
      memInv_append_cat inv _ c rfl rfl hc rfl rfl rfl
    cases r <;> exact h4 ▸ (check_consolidation_memInv hinv3 now).1

theorem id_inj {l : List MemoryItem} (hnd : (l.map MemoryItem.id).Nodup)
    {x y : MemoryItem} (hx : x ∈ l) (hy : y ∈ l) (h : x.id = y.id) : x = y :=
  List.inj_on_of_nodup_map hnd hx hy h

theorem mapById_of_no_id (k : Nat) (f : MemoryItem → MemoryItem)
    {l : List MemoryItem} (h : ∀ x ∈ l, x.id ≠ k) : mapById k f l = l := by
  unfold mapById
  rw [List.map_congr_left (fun x hx => if_neg (h x hx))]
  exact List.map_id l

theorem memInv_reindex {st st' : MemState} (inv : MemInv st) (u : MemoryItem)
    (c : String) (hu : u ∈ st.memory_items) (hucat : u.category = some c)
    (hc : c ∈ memoryCategories)
    (hflat : st'.memory_items = st.memory_items)
    (hsm : st'.structured_memory = alistSet st.structured_memory c
        (fun b => (b.filter (fun x => x.id ≠ u.id)) ++ [u]))
    (htot : st'.total_items = st.total_items) :
    MemInv st' := by
  have hsome : (alistFind st.structured_memory c).isSome = true := by
    rw [alistFind_isSome, inv.keys_eq]
    exact List.elem_iff.mpr hc
  obtain ⟨b0, hb0⟩ := Option.isSome_iff_exists.mp hsome
  have hb0' : bucketOf st c = b0 := by
    unfold bucketOf
    rw [hb0]
    rfl
  have hbc : bucketOf st' c = (b0.filter (fun x => x.id ≠ u.id)) ++ [u] := by
    unfold bucketOf
    rw [hsm, alistFind_set_eq, hb0]
    rfl
  have hbne : ∀ c', c' ≠ c → bucketOf st' c' = bucketOf st c' := by
    intro c' hne
    unfold bucketOf
    rw [hsm, alistFind_set_ne _ _ _ _ hne]
  constructor
  · intro c' hc' x
    by_cases hcc : c' = c
    · subst hcc
      rw [hbc, hflat]
      simp only [List.mem_append, List.mem_singleton, List.mem_filter]
      constructor
      · rintro (⟨hx, _⟩ | rfl)
        · exact (inv.bucket_mem c' hc' x).mp (by rw [hb0']; exact hx)
        · exact ⟨hu, hucat⟩
      · rintro ⟨hx, hcx⟩
        by_cases hxid : x.id = u.id
        · right
          exact id_inj inv.flat_nodup hx hu hxid
        · left
          refine ⟨?_, by simpa using hxid⟩
          have hm : x ∈ bucketOf st c' := (inv.bucket_mem c' hc' x).mpr ⟨hx, hcx⟩
          rw [hb0'] at hm
          exact hm
    · rw [hbne c' hcc, hflat]
      exact inv.bucket_mem c' hc' x
  · rw [hflat]
    exact inv.flat_nodup
  · intro c' hc'
    by_cases hcc : c' = c
    · subst hcc
      rw [hbc, List.map_append, List.nodup_append]
      refine ⟨?_, by simp, ?_⟩
      · refine List.Nodup.sublist (List.Sublist.map _ (List.filter_sublist b0)) ?_
        rw [← hb0']
        exact inv.bucket_nodup c' hc'
      · intro a ha hamem
        obtain ⟨x, hx, rfl⟩ := List.mem_map.mp ha
        simp only [List.map_cons, List.map_nil, List.mem_cons, List.not_mem_nil,
          or_false] at hamem
        have := List.of_mem_filter hx
        simp [hamem] at this
    · rw [hbne c' hcc]
      exact inv.bucket_nodup c' hc'
  · intro x hx
    rw [hflat] at hx
    rw [htot]
    exact inv.id_bound x hx
  · intro x hx
    rw [hflat] at hx
    exact inv.cat_valid x hx
  · rw [hsm, alistSet_keys]
    exact inv.keys_eq

theorem mem_mapById_image {l : List MemoryItem} {x : MemoryItem} (k : Nat)
    (f : MemoryItem → MemoryItem) (hx : x ∈ l) (hk : x.id = k) :
    f x ∈ mapById k f l := by
  unfold mapById
  exact List.mem_map.mpr ⟨x, hx, by simp [hk]⟩

theorem memInv_mutate_recat {st st' : MemState} (inv : MemInv st) (k : Nat)
    (f : MemoryItem → MemoryItem) (target : MemoryItem) (c : String)
    (hid : ∀ x, (f x).id = x.id)
    (htm : target ∈ st.memory_items) (htid : target.id = k)
    (htcat : target.category = none) (hfcat : (f target).category = some c)
    (hc : c ∈ memoryCategories)
    (hflat : st'.memory_items = mapById k f st.memory_items)
    (hsm : st'.structured_memory = alistSet
        (st.structured_memory.map (fun p => (p.1, mapById k f p.2))) c
        (fun b => (b.filter (fun x => x.id ≠ (f target).id)) ++ [f target]))
    (htot : st'.total_items = st.total_items) :
    MemInv st' := by
  have hK1 : ∀ c' ∈ memoryCategories, ∀ x ∈ bucketOf st c', x.id ≠ k := by
    intro c' hc' x hx hxk
    have hm := (inv.bucket_mem c' hc' x).mp hx
    have : x = target := id_inj inv.flat_nodup hm.1 htm (by rw [hxk, htid])
    rw [this, htcat] at hm
    exact Option.noConfusion hm.2
  have hkeysmap : ((st.structured_memory.map
      (fun p => (p.1, mapById k f p.2))).map Prod.fst) = memoryCategories := by
    rw [List.map_map]
    rw [show (Prod.fst ∘ fun p : String × List MemoryItem => (p.1, mapById k f p.2))
        = Prod.fst from rfl]
    exact inv.keys_eq
  have hsome : (alistFind st.structured_memory c).isSome = true := by
    rw [alistFind_isSome, inv.keys_eq]
    exact List.elem_iff.mpr hc
  obtain ⟨b0, hb0⟩ := Option.isSome_iff_exists.mp hsome
  have hb0' : bucketOf st c = b0 := by
    unfold bucketOf
    rw [hb0]
    rfl
  have hb0k : ∀ x ∈ b0, x.id ≠ k := by
    intro x hx
    exact hK1 c hc x (by rw [hb0']; exact hx)
  have hfid : (f target).id = k := by rw [hid, htid]
  have hfilter : b0.filter (fun x => x.id ≠ (f target).id) = b0 := by
    rw [List.filter_eq_self]
    intro x hx
    simpa [hfid] using hb0k x hx
  have hbc : bucketOf st' c = b0 ++ [f target] := by
    unfold bucketOf
    rw [hsm, alistFind_set_eq, alistFind_map_val, hb0]
    dsimp only [Option.map, Option.getD]
    rw [mapById_of_no_id k f hb0k, hfilter]
  have hbne : ∀ c' ∈ memoryCategories, c' ≠ c → bucketOf st' c' = bucketOf st c' := by
    intro c' hc' hne
    unfold bucketOf
    rw [hsm, alistFind_set_ne _ _ _ _ hne, alistFind_map_val]
    cases hfind : alistFind st.structured_memory c' with
    | none => rfl
    | some b =>
      dsimp only [Option.map, Option.getD]
      refine mapById_of_no_id k f ?_
      intro x hx
      refine hK1 c' hc' x ?_
      unfold bucketOf
      rw [hfind]
      exact hx
  constructor
  · intro c' hc' x
    by_cases hcc : c' = c
    · subst hcc
      rw [hbc, hflat]
      simp only [List.mem_append, List.mem_singleton]
      constructor
      · rintro (hx | rfl)
        · have hm := (inv.bucket_mem c' hc' x).mp (by rw [hb0']; exact hx)
          exact ⟨mem_mapById_of_ne k f hm.1 (hb0k x hx), hm.2⟩
        · exact ⟨mem_mapById_image k f htm htid, hfcat⟩
      · rintro ⟨hx, hcx⟩
        unfold mapById at hx
        obtain ⟨x', hx', hxeq⟩ := List.mem_map.mp hx
        by_cases hxk : x'.id = k
        · right
          rw [if_pos hxk] at hxeq
          have : x' = target := id_inj inv.flat_nodup hx' htm (by rw [hxk, htid])
          rw [← hxeq, this]
        · left
          rw [if_neg hxk] at hxeq
          subst hxeq
          rw [← hb0']
          exact (inv.bucket_mem c' hc' x').mpr ⟨hx', hcx⟩
    · rw [hbne c' hc' hcc, hflat]
      constructor
      · intro hx
        have hm := (inv.bucket_mem c' hc' x).mp hx
        exact ⟨mem_mapById_of_ne k f hm.1 (hK1 c' hc' x hx), hm.2⟩
      · rintro ⟨hx, hcx⟩
        unfold mapById at hx
        obtain ⟨x', hx', hxeq⟩ := List.mem_map.mp hx
        by_cases hxk : x'.id = k
        · exfalso
          rw [if_pos hxk] at hxeq
          have hxt : x' = target := id_inj inv.flat_nodup hx' htm (by rw [hxk, htid])
          rw [← hxeq, hxt, hfcat] at hcx
          exact hcc (Option.some.inj hcx).symm
        · rw [if_neg hxk] at hxeq
          subst hxeq
          exact (inv.bucket_mem c' hc' x').mpr ⟨hx', hcx⟩
  · rw [hflat, mapById_map_id k f hid]
    exact inv.flat_nodup
  · intro c' hc'
    by_cases hcc : c' = c
    · subst hcc
      rw [hbc, List.map_append, List.nodup_append]
      refine ⟨by rw [← hb0']; exact inv.bucket_nodup c' hc', by simp, ?_⟩
      intro a ha hamem
      obtain ⟨x, hx, rfl⟩ := List.mem_map.mp ha
      simp only [List.map_cons, List.map_nil, List.mem_cons, List.not_mem_nil,
        or_false] at hamem
      rw [hfid] at hamem
      exact hb0k x hx hamem
    · rw [hbne c' hc' hcc]
      exact inv.bucket_nodup c' hc'
  · intro x hx
    rw [hflat] at hx
    rw [htot]
    unfold mapById at hx
    obtain ⟨x', hx', rfl⟩ := List.mem_map.mp hx
    have hb := inv.id_bound x' hx'
    by_cases hxk : x'.id = k
    · rw [hxk] at hb
      simp [hxk, hid, hb]
    · simp [hxk, hb]
  · intro x hx
    rw [hflat] at hx
    unfold mapById at hx
    obtain ⟨x', hx', rfl⟩ := List.mem_map.mp hx
    by_cases hxk : x'.id = k
    · have hxt : x' = target := id_inj inv.flat_nodup hx' htm (by rw [hxk, htid])
      rw [if_pos hxk, hxt]
      exact Or.inr ⟨c, hfcat, hc⟩
    · rw [if_neg hxk]
      exact inv.cat_valid x' hx'
  · rw [hsm, alistSet_keys]
    exact hkeysmap

theorem mutate_keys (k : Nat) (f : MemoryItem → MemoryItem) (st : MemState) :
    ((mutateEverywhere k f st).structured_memory).map Prod.fst
      = st.structured_memory.map Prod.fst := by
  unfold mutateEverywhere
  dsimp only
  rw [List.map_map]
  rfl

theorem update_truthy_case {st : MemState} (inv : MemInv st) (k : Nat)
    (f : MemoryItem → MemoryItem) (target : MemoryItem) (c : String)
    (hid : ∀ x, (f x).id = x.id)
    (hcatf : ∀ x ∈ st.memory_items, x.id = k → (f x).category = x.category)
    (htm : target ∈ st.memory_items) (htid : target.id = k)
    (hfcat : (f target).category = some c) (hc : c ∈ memoryCategories) :
    MemInv (update_structured_memory (f target) (mutateEverywhere k f st)) := by
  have inv1 : MemInv (mutateEverywhere k f st) := memInv_mutate inv k f hid hcatf
  have hu : f target ∈ (mutateEverywhere k f st).memory_items :=
    mem_mapById_image k f htm htid
  unfold update_structured_memory
  rw [hfcat]
  dsimp only
  have hsome : (alistFind (mutateEverywhere k f st).structured_memory c).isSome
      = true := by
    rw [alistFind_isSome, mutate_keys, inv.keys_eq]
    exact List.elem_iff.mpr hc
  rw [if_pos hsome]
  exact memInv_reindex inv1 (f target) c hu hfcat hc rfl rfl rfl

theorem update_memInv {st : MemState} (inv : MemInv st) (now : ℤ) (item_id : Nat)
    (nd : UpdateData)
    (hv : validOpB st (.update now item_id nd) = true) :
    MemInv (update_memory_item now item_id nd st).1 := by
  unfold update_memory_item
  match hf : st.memory_items.find? (fun x => x.id == item_id) with
  | none =>
    rw [hf]
    exact inv
  | some target =>
    rw [hf]
    dsimp only
    have htm : target ∈ st.memory_items := List.mem_of_find?_eq_some hf
    have htid : target.id = item_id := by
      have := List.find?_some hf
      simpa using this
    rcases hndc : nd.category with _ | newCat
    · have hcatf : ∀ x, (applyUpdate now nd x).category = x.category := by
        intro x
        simp [applyUpdate, hndc]
      by_cases ht : pyTruthy (applyUpdate now nd target).category = true
      · rw [if_pos ht]
        rw [hcatf] at ht
        rcases inv.cat_valid target htm with hnone | ⟨c, hcs, hcm⟩
        · rw [hnone] at ht
          simp [pyTruthy] at ht
        · refine update_truthy_case inv item_id (applyUpdate now nd) target c
            (fun x => rfl) (fun x _ _ => hcatf x) htm htid ?_ hcm
          rw [hcatf, hcs]
      · rw [if_neg ht]
        exact memInv_mutate inv item_id (applyUpdate now nd)
          (fun x => rfl) (fun x _ _ => hcatf x)
    · simp only [validOpB] at hv
      rw [hndc] at hv
      rcases newCat with _ | c
      · simp at hv
      · dsimp only at hv
        rw [hf] at hv
        dsimp only at hv
        rw [Bool.and_eq_true] at hv
        have hc : c ∈ memoryCategories := List.elem_iff.mp hv.1
        have ucat : (applyUpdate now nd target).category = some c := by
          simp [applyUpdate, hndc]
        have ht : pyTruthy (applyUpdate now nd target).category = true := by
          rw [ucat]
          exact truthy_of_cat hc
        rw [if_pos ht]
        have hv2 : target.category = none ∨ target.category = some c := by
          simpa using hv.2
        rcases hv2 with htcat | htcat
        · unfold update_structured_memory
          rw [ucat]
          dsimp only
          have hsome : (alistFind (mutateEverywhere item_id (applyUpdate now nd) st).structured_memory c).isSome = true := by
            rw [alistFind_isSome, mutate_keys, inv.keys_eq]
            exact List.elem_iff.mpr hc
          rw [if_pos hsome]
          exact memInv_mutate_recat inv item_id (applyUpdate now nd) target c
            (fun x => rfl) htm htid htcat ucat hc rfl rfl rfl
        · refine update_truthy_case inv item_id (applyUpdate now nd) target c
            (fun x => rfl) ?_ htm htid ucat hc
          intro x hx hxk
          have hxt : x = target := id_inj inv.flat_nodup hx htm (hxk.trans htid.symm)
          rw [hxt, htcat]
          simp [applyUpdate, hndc]

theorem remove_memInv {st : MemState} (inv : MemInv st) (memory_id : Nat) :
    MemInv (handle_remove_from_memory memory_id st).1 := by
  unfold handle_remove_from_memory
  match hf : st.memory_items.find? (fun x => x.id == memory_id) with
  | none =>
    rw [hf]
    exact inv
  | some it =>
    rw [hf]
    dsimp only
    have hitm : it ∈ st.memory_items := List.mem_of_find?_eq_some hf
    have hrem : pyListRemove it st.memory_items = .ok (st.memory_items.erase it) := by
      unfold pyListRemove
      rw [if_pos hitm]
    rw [hrem]
    dsimp only
    by_cases htruthy : pyTruthy it.category = true
    · have hcatsome : ∃ c, it.category = some c ∧ c ∈ memoryCategories := by
        rcases inv.cat_valid it hitm with hnone | ⟨s, hs, hsmem⟩
        · rw [hnone] at htruthy
          simp [pyTruthy] at htruthy
        · exact ⟨s, hs, hsmem⟩
      obtain ⟨c, hcx, hcm⟩ := hcatsome
      rw [if_pos htruthy, hcx]
      dsimp only
      have hsome1 : (alistFind st.structured_memory c).isSome = true := by
        rw [alistFind_isSome, inv.keys_eq]
        exact List.elem_iff.mpr hcm
      obtain ⟨b0, hb0x⟩ := Option.isSome_iff_exists.mp hsome1
      have hb0' : bucketOf st c = b0 := by
        unfold bucketOf
        rw [hb0x]
        rfl
      rw [hb0x]
      dsimp only
      have hitb : it ∈ b0 := by
        rw [← hb0']
        exact (inv.bucket_mem c hcm it).mpr ⟨hitm, hcx⟩
      have hremb : pyListRemove it b0 = .ok (b0.erase it) := by
        unfold pyListRemove
        rw [if_pos hitb]
      rw [hremb]
      dsimp only
      refine memInv_erase_cat inv it c hcx hcm rfl ?_ rfl
      rw [hb0']
    · rw [if_neg htruthy]
      exact memInv_erase_uncat inv it (by simpa using htruthy) rfl rfl rfl

theorem memInv_claimC2B {st : MemState} (inv : MemInv st) : claimC2B st = true := by
  unfold claimC2B
  rw [Bool.and_eq_true]
  constructor
  · rw [List.all_eq_true]
    intro it hit
    by_cases hcs : it.category.isSome = true
    · rw [if_pos hcs]
      obtain ⟨c0, hc0⟩ := Option.isSome_iff_exists.mp hcs
      have hc0m : c0 ∈ memoryCategories := by
        rcases inv.cat_valid it hit with hnone | ⟨s, hs, hsm⟩
        · rw [hnone] at hc0
          exact Option.noConfusion hc0
        · rw [hs] at hc0
          rw [← Option.some.inj hc0]
          exact hsm
      rw [beq_iff_eq]
      have hcount : memoryCategories.countP (fun c => (bucketOf st c).contains it)
          = memoryCategories.countP (fun c => c == c0) := by
        apply List.countP_congr
        intro c hc
        constructor
        · intro hcon
          have hm := (inv.bucket_mem c hc it).mp (List.elem_iff.mp hcon)
          rw [hc0] at hm
          rw [beq_iff_eq]
          exact (Option.some.inj hm.2).symm
        · intro hbeq
          rw [beq_iff_eq] at hbeq
          subst hbeq
          exact List.elem_iff.mpr ((inv.bucket_mem c hc it).mpr ⟨hit, hc0⟩)
      rw [hcount]
      exact List.count_eq_one_of_mem (by decide) hc0m
    · rw [if_neg hcs]
  · rw [List.all_eq_true]
    intro c hc
    unfold listSetEqB
    rw [Bool.and_eq_true]
    constructor
    · rw [List.all_eq_true]
      intro x hx
      have hm := (inv.bucket_mem c hc x).mp hx
      refine List.elem_iff.mpr ?_
      unfold catFilter
      rw [List.mem_filter]
      refine ⟨hm.1, ?_⟩
      rw [hm.2]
      exact beq_self_eq_true _
    · rw [List.all_eq_true]
      intro x hx
      unfold catFilter at hx
      rw [List.mem_filter] at hx
      refine List.elem_iff.mpr ?_
      exact (inv.bucket_mem c hc x).mpr ⟨hx.1, beq_iff_eq.mp hx.2⟩

theorem validSeq_memInv :
    ∀ (ops : List MemOp) (st : MemState), MemInv st → ValidSeqB st ops = true →
    MemInv (applyMemOps ops st) := by
  intro ops
  induction ops with
  | nil =>
    intro st inv _
    exact inv
  | cons op rest ih =>
    intro st inv hvs
    simp only [ValidSeqB, Bool.and_eq_true] at hvs
    have inv' : MemInv (applyMemOp st op) := by
      cases op with
      | add now text cat md => exact add_memInv inv now text cat md hvs.1
      | update now item_id nd => exact update_memInv inv now item_id nd hvs.1
      | remove memory_id => exact remove_memInv inv memory_id
    exact ih (applyMemOp st op) inv' hvs.2

def opsC2w : List MemOp :=
  [.add 100000 "red potion" (some "items") none,
   .add 100001 "met the elder" none none,
   .update 100002 1 { item := some "red potion used", priority := some 3 },
   .update 100003 2 { category := some (some "npcs") },
   .remove 1]

/-- C2 (amended): for every operation sequence in which each `add` uses a
valid or absent category and no `update` changes an item's existing truthy
category, the store satisfies the claimed bucket invariant: every
categorised item lies in exactly one bucket, and each bucket equals the
flat list filtered by its category. -/
theorem c2_amended (ops : List MemOp)
    (h : ValidSeqB initMemState ops = true) :
    claimC2B (applyMemOps ops initMemState) = true :=
  memInv_claimC2B (validSeq_memInv ops initMemState memInv_init h)

/-- Witness for C2 (amended): a concrete valid sequence with categorised and
uncategorised adds, a field update, a category-setting update and a removal
satisfies the invariant. -/
theorem c2_witness :
    ValidSeqB initMemState opsC2w = true ∧
    claimC2B (applyMemOps opsC2w initMemState) = true :=
  ⟨by decide, c2_amended opsC2w (by decide)⟩

/-- Why the amended C2 must also restrict category-setting updates: an
update that sets an unknown category (here `"foo"`) on an uncategorised
item is silently accepted by `update_memory_item`, but
`_update_structured_memory` no-ops on unknown keys, leaving a categorised
item in zero buckets.  `ValidSeqB` rejects this sequence. -/
theorem c2_invalid_update_breaks_invariant :
    claimC2B (applyMemOps
      [.add 100000 "met a stranger" none none,
       .update 100001 1 { category := some (some "foo") }] initMemState) = false
    ∧ ValidSeqB initMemState
      [.add 100000 "met a stranger" none none,
       .update 100001 1 { category := some (some "foo") }] = false := by
  constructor <;> decide
